import Mathlib

/-!
# Verification of the goja_go declaration-extraction engine

This file is a shallow embedding of the Declaration Extraction &
Type-Expression Reconstruction Engine of the `goja_go` repository.

The repository contains two near-duplicate variants of the engine:
* `src/main.go` (the main variant: `Data.formatType`, `Data.addImport`,
  `Data.scan`, ...), embedded at top level below;
* `src/unnamed/part_000` (the second variant: package-level `formatType`,
  `formatFuncResults`, ...), embedded in namespace `V0`.

Modelling conventions:
* Go strings are modelled as `List Char` (`Str`).  Go compares strings
  bytewise; identifiers and import paths in scope here are ASCII, where
  bytewise and codepoint-wise comparison coincide.
* The Go methods mutate only `data.Imports` while rendering types, so the
  rendering functions thread the `Imports` list explicitly and take the
  read-only fields (`InputPkg`, `ImportPaths`) as plain parameters.
  `Data.scan` additionally appends to `data.ImportPaths` and
  `data.Funcs`; `scanFile`/`scan` below thread the whole `Data`.
* Go `panic` (the unsupported-chan branch of `formatType`) and returned
  `error` values are both modelled as `Except.error` with a `GoErr` tag,
  since either aborts the run before any output is written.
* `ast.Expr` is modelled as the closed variant of node kinds the engine
  dispatches on (plus `chanT`); the `default: panic` branch for node
  kinds the program never handles is outside the modelled variant.
* Go `file.Scope.Objects` and `pkg.Files` are maps; `range` over a Go map
  yields an unspecified enumeration order.  A `GoFile` therefore carries
  its objects as a list in enumeration order, and `scan` takes the files
  in enumeration order; run-to-run nondeterminism of Go map iteration is
  modelled by quantifying over (or varying) these orders.
-/

/-- Go strings, modelled as lists of characters. -/
abbrev Str := List Char

/-- Injection of Lean string literals into the model's strings. -/
def str (s : String) : Str := s.data

/-- `strings.TrimPrefix`. -/
def trimPrefix (s pre : Str) : Str :=
  if pre.isPrefixOf s then s.drop pre.length else s

/-- `strings.TrimSpace`.  Go trims Unicode space characters; the text the
engine trims only ever carries ASCII whitespace, covered by
`Char.isWhitespace`. -/
def trimSpace (s : Str) : Str :=
  ((s.dropWhile Char.isWhitespace).reverse.dropWhile Char.isWhitespace).reverse

/-- `strings.ReplaceAll s pat rep` specialised to the two-character
patterns (`"(("` and `"))"`) the engine uses: replaces non-overlapping
occurrences of `[a, b]` left to right, continuing after each
replacement. -/
def replaceAll2 (a b : Char) (rep : Str) : Str → Str
  | [] => []
  | [c] => [c]
  | c :: d :: rest =>
    if c = a ∧ d = b then rep ++ replaceAll2 a b rep rest
    else c :: replaceAll2 a b rep (d :: rest)

/-- `ast.IsExported` / `ast.Ident.IsExported`: the first character of the
name is uppercase (Go tests `unicode.IsUpper` on the first rune; the
identifiers in scope are ASCII). -/
def isExported : Str → Bool
  | [] => false
  | c :: _ => c.isUpper

/-- `upper1st` from `src/main.go`.  (The Go version indexes `rs[0]` and
panics on the empty string; the empty case never arises in a run and is
mapped to the empty string here.) -/
def upper1st : Str → Str
  | [] => []
  | c :: rest => c.toUpper :: rest

/-- `lower1st` from `src/main.go` (same remark about the empty string). -/
def lower1st : Str → Str
  | [] => []
  | c :: rest => c.toLower :: rest

/-- `getPackageName` from `src/main.go`: replaces `/` and `.` by `_`,
lowercases, and prepends the `-p` prefix (the prefix itself is not
lowercased by the Go code). -/
def getPackageName (pre pkgName : Str) : Str :=
  pre ++ (pkgName.map (fun c => if c = '/' ∨ c = '.' then '_' else c)).map Char.toLower

/-- The inner name loop of `formatFuncFields`: each name is followed by
`","` when it is not the last of its group, then by `" "`. -/
def namesText : List Str → Str
  | [] => []
  | [n] => n ++ str " "
  | n :: ns => n ++ str ", " ++ namesText ns

/-- Bytewise (here: codepoint-wise) string comparison, as used by Go's
`sort.Strings` and the `<` comparisons of `sort.Slice`. -/
def strLeb : Str → Str → Bool
  | [], _ => true
  | _ :: _, [] => false
  | a :: as, b :: bs =>
    if a.toNat < b.toNat then true
    else if b.toNat < a.toNat then false
    else strLeb as bs

/- The type-expression nodes the engine dispatches on, mutually with
field lists and optional (possibly-nil) field lists. -/
mutual
/-- The type-expression nodes the engine dispatches on (`ast.Ident`,
`ast.SelectorExpr`, `ast.StarExpr`, `ast.ArrayType`, `ast.Ellipsis`,
`ast.FuncType`, `ast.MapType`, `ast.ChanType`, `ast.BasicLit`, and the
`nil` expression for an absent array length). -/
inductive Expr where
  | nilE : Expr
  | ident (name : Str) : Expr
  | selector (x : Expr) (sel : Str) : Expr
  | star (x : Expr) : Expr
  | arr (len : Expr) (elt : Expr) : Expr
  | ell (elt : Expr) : Expr
  | funcT (params : Fields) (results : OFields) : Expr
  | mapT (key : Expr) (value : Expr) : Expr
  | chanT : Expr
  | lit (value : Str) : Expr

/-- `ast.FieldList`: a list of groups of names sharing one type. -/
inductive Fields where
  | nil : Fields
  | cons (names : List Str) (ty : Expr) (rest : Fields) : Fields

/-- A possibly-nil `*ast.FieldList`. -/
inductive OFields where
  | none : OFields
  | some (fs : Fields) : OFields
end

/-- `len(fields.List)`. -/
def Fields.length : Fields → Nat
  | .nil => 0
  | .cons _ _ rest => 1 + rest.length

/-- `*ast.FuncDecl`: receiver clause (a possibly-nil field list), name,
parameters and results. -/
structure FuncDecl where
  recv : OFields
  name : Str
  params : Fields
  results : OFields

/-- `ast.ObjKind`. -/
inductive ObjKind where
  | Bad | Pkg | Con | Typ | Var | Fun | Lbl
deriving DecidableEq

/-- A scope object (`*ast.Object`): its kind and, for the `Fun` objects
the scan processes, its declaration (Go type-asserts
`object.Decl.(*ast.FuncDecl)`). -/
structure Object where
  kind : ObjKind
  decl : FuncDecl

/-- One parsed file: its declared import paths (the raw quoted literal
values `i.Path.Value`, in source order) and its scope objects
(`file.Scope.Objects`, a map, given here in enumeration order). -/
structure GoFile where
  imports : List Str
  objects : List (Str × Object)

/-- The `Func` record of `src/main.go` (its `Signature` field is never
assigned by the program and stays empty). -/
structure Func where
  Name : Str
  JsName : Str
  Receiver : Str
  Signature : Str
  Params : Str
  ParamNames : Str
  Results : Str
deriving DecidableEq

/-- The `Data` record of `src/main.go`. -/
structure Data where
  InputPkg : Str
  OutputPkg : Str
  StructName : Str
  JsStructName : Str
  ImportPaths : List Str
  Imports : List Str
  Funcs : List Func
deriving DecidableEq

/-- The faults the engine can raise: the `panic` of `formatType` for a
channel type, and the two `strange receiver` errors of
`formatFuncDecl`. -/
inductive GoErr where
  | unsupportedChan : GoErr
  | strangeReceiver (name : Str) : GoErr
  | strangeReceiverField (name : Str) : GoErr
deriving DecidableEq

deriving instance DecidableEq for Except

/-- Whether a fault is one of the structural (malformed receiver)
faults. -/
def GoErr.structural : GoErr → Bool
  | .strangeReceiver _ => true
  | .strangeReceiverField _ => true
  | .unsupportedChan => false

/-- The suffix-resolution loop of `Data.addImport`: the first known path
ending in `"/" + imprt` replaces `imprt` (the Go loop `break`s at the
first match). -/
def resolveImport (paths : List Str) (q : Str) : Str :=
  match paths with
  | [] => q
  | df :: rest => if (str "/" ++ q).isSuffixOf df then df else resolveImport rest q

/-- The two `strings.TrimPrefix` steps of `Data.addImport`. -/
def stripQual (q : Str) : Str :=
  trimPrefix (trimPrefix q (str "*")) (str "[]")

/-- `Data.addImport` from `src/main.go`, as a function from the read-only
`ImportPaths` and current `Imports` to the new `Imports`. -/
def addImport (paths imp : List Str) (q : Str) : List Str :=
  let i := stripQual q
  let r := resolveImport paths i
  if imp.contains r || (str "internal/").isPrefixOf r then imp
  else imp ++ [r]

/-- The tail of `Data.formatType`: after rendering, if the text has a
qualifier (text before the first `.`), register it with `addImport`. -/
def finishType (paths : List Str) (s : Str) (imp : List Str) : Str × List Str :=
  if s.contains '.' then (s, addImport paths imp (s.takeWhile (fun c => ¬ c = '.')))
  else (s, imp)

mutual
/- `Data.formatType` from `src/main.go`. -/
/-- `Data.formatType` from `src/main.go`: renders a type node and, as a
side effect on the threaded `Imports`, registers every qualifier
appearing in a rendered result (each recursive call applies
`finishType` to its own result, as in the source).  The channel case is
the source's `panic`. -/
def formatType (pkg : Str) (paths : List Str) (imp : List Str) :
    Expr → Except GoErr (Str × List Str)
  | .nilE => .ok (finishType paths [] imp)
  | .ident n =>
    .ok (finishType paths
      (if !(n.contains '.') && isExported n then pkg ++ str "." ++ n else n) imp)
  | .selector x sel =>
    match formatType pkg paths imp x with
    | .error e => .error e
    | .ok (sx, imp₁) => .ok (finishType paths (sx ++ str "." ++ sel) imp₁)
  | .star x =>
    match formatType pkg paths imp x with
    | .error e => .error e
    | .ok (sx, imp₁) => .ok (finishType paths (str "*" ++ sx) imp₁)
  | .arr len elt =>
    match formatType pkg paths imp len with
    | .error e => .error e
    | .ok (sl, imp₁) =>
      match formatType pkg paths imp₁ elt with
      | .error e => .error e
      | .ok (se, imp₂) =>
        .ok (finishType paths (str "[" ++ sl ++ str "]" ++ se) imp₂)
  | .ell elt =>
    match formatType pkg paths imp elt with
    | .error e => .error e
    | .ok (se, imp₁) => .ok (finishType paths se imp₁)
  | .funcT params results =>
    -- `data.formatFuncFields(t.Params, true)` is `trimSpace` of the
    -- field loop (the wrapper `formatFuncFields` is defined after this
    -- mutual block).
    match fieldsStr pkg paths imp true params with
    | .error e => .error e
    | .ok (fp, imp₁) =>
      match formatFuncResults pkg paths imp₁ results with
      | .error e => .error e
      | .ok (fr, imp₂) =>
        .ok (finishType paths (str "func(" ++ trimSpace fp ++ str ")" ++ fr) imp₂)
  | .mapT k v =>
    match formatType pkg paths imp k with
    | .error e => .error e
    | .ok (sk, imp₁) =>
      match formatType pkg paths imp₁ v with
      | .error e => .error e
      | .ok (sv, imp₂) =>
        .ok (finishType paths (str "map[" ++ sk ++ str "]" ++ sv) imp₂)
  | .chanT => .error .unsupportedChan
  | .lit v => .ok (finishType paths v imp)

/-- The field loop of `Data.formatFuncFields` (before the final
`strings.TrimSpace`): each group renders its names (`namesText`) and,
when `inclType` holds, its type; groups are separated by `", "`. -/
def fieldsStr (pkg : Str) (paths : List Str) (imp : List Str) (inclType : Bool) :
    Fields → Except GoErr (Str × List Str)
  | .nil => .ok ([], imp)
  | .cons names ty rest =>
    match (if inclType then formatType pkg paths imp ty else .ok ([], imp)) with
    | .error e => .error e
    | .ok (t, imp₁) =>
      match fieldsStr pkg paths imp₁ inclType rest with
      | .error e => .error e
      | .ok (s2, imp₂) =>
        .ok (namesText names ++ t ++
          (match rest with | .nil => [] | .cons _ _ _ => str ", ") ++ s2, imp₂)

/-- `Data.formatFuncResults` from `src/main.go`: parenthesises when there
is more than one result group, additionally parenthesises a rendered
list containing a comma, and collapses doubled parentheses
(`strings.ReplaceAll` with `"(("` then `"))"`; for a nil field list the
replacements act on the empty string). -/
def formatFuncResults (pkg : Str) (paths : List Str) (imp : List Str) :
    OFields → Except GoErr (Str × List Str)
  | .none => .ok ([], imp)
  | .some fs =>
    match fieldsStr pkg paths imp true fs with
    | .error e => .error e
    | .ok (f0, imp₁) =>
      let f1 := trimSpace f0
      let f2 := if f1.contains ',' then str "(" ++ f1 ++ str ")" else f1
      let s := (if 1 < fs.length then str "(" else []) ++ f2 ++
        (if 1 < fs.length then str ")" else [])
      .ok (replaceAll2 ')' ')' (str ")") (replaceAll2 '(' '(' (str "(") s), imp₁)
end

/-- `Data.formatFuncFields` from `src/main.go`: the field loop followed
by `strings.TrimSpace`. -/
def formatFuncFields (pkg : Str) (paths : List Str) (imp : List Str)
    (fs : Fields) (inclType : Bool) : Except GoErr (Str × List Str) :=
  match fieldsStr pkg paths imp inclType fs with
  | .error e => .error e
  | .ok (s, imp₁) => .ok (trimSpace s, imp₁)

/-- The zero value `Func{}` returned for an interface method
specification. -/
def emptyFunc : Func :=
  { Name := [], JsName := [], Receiver := [], Signature := [],
    Params := [], ParamNames := [], Results := [] }

/-- Lines 203–208 of `src/main.go` (`formatFuncDecl` after the receiver
handling): name, JS name, parameter texts and result text. -/
def buildFunc (pkg : Str) (paths : List Str) (imp : List Str)
    (decl : FuncDecl) (recvStr : Str) : Except GoErr (Func × List Str) :=
  match formatFuncFields pkg paths imp decl.params true with
  | .error e => .error e
  | .ok (ps, imp₁) =>
    match formatFuncFields pkg paths imp₁ decl.params false with
    | .error e => .error e
    | .ok (pn, imp₂) =>
      match formatFuncResults pkg paths imp₂ decl.results with
      | .error e => .error e
      | .ok (rs, imp₃) =>
        .ok ({ Name := decl.name, JsName := lower1st decl.name,
               Receiver := recvStr, Signature := [],
               Params := str "(" ++ ps ++ str ")",
               ParamNames := str "(" ++ pn ++ str ")",
               Results := rs }, imp₃)

/-- `Data.formatFuncDecl` from `src/main.go`: rejects a receiver clause
that does not have exactly one field group (`strange receiver`) or whose
single group has more than one name (`strange receiver field`); a single
group with zero names is an interface method specification and yields
the zero `Func` without error. -/
def formatFuncDecl (pkg : Str) (paths : List Str) (imp : List Str)
    (decl : FuncDecl) : Except GoErr (Func × List Str) :=
  match decl.recv with
  | .none => buildFunc pkg paths imp decl []
  | .some fl =>
    match fl with
    | .nil => .error (.strangeReceiver decl.name)
    | .cons _ _ (.cons _ _ _) => .error (.strangeReceiver decl.name)
    | .cons names ty .nil =>
      match names with
      | [] => .ok (emptyFunc, imp)
      | _ :: _ :: _ => .error (.strangeReceiverField decl.name)
      | [rn] =>
        match formatType pkg paths imp ty with
        | .error e => .error e
        | .ok (t, imp₁) =>
          buildFunc pkg paths imp₁ decl (str "(" ++ rn ++ str " " ++ t ++ str ") ")

/-- `Data.containesFunc` from `src/main.go`. -/
def containesFunc (funcs : List Func) (name : Str) : Bool :=
  match funcs with
  | [] => false
  | f :: rest => if f.Name == name then true else containesFunc rest name

/-- The object loop of `Data.scan`: processes each scope object of kind
`kind` whose name is exported and not yet recorded; a returned `Func`
with an empty name (interface method specification) is skipped. -/
def scanObjects (pkg : Str) (paths : List Str) (kind : ObjKind)
    (imp : List Str) (funcs : List Func) :
    List (Str × Object) → Except GoErr (List Str × List Func)
  | [] => .ok (imp, funcs)
  | (name, obj) :: rest =>
    if obj.kind = kind ∧ isExported name = true ∧ containesFunc funcs name = false then
      match formatFuncDecl pkg paths imp obj.decl with
      | .error e => .error e
      | .ok (f, imp₁) =>
        if f.Name = [] then scanObjects pkg paths kind imp₁ funcs rest
        else scanObjects pkg paths kind imp₁ (funcs ++ [f]) rest
    else scanObjects pkg paths kind imp funcs rest

/-- The import loop of `Data.scan`: every non-empty quoted import path of
the file, unquoted (`Value[1 : len(Value)-1]`), is appended to
`ImportPaths`. -/
def importPathsOf (f : GoFile) : List Str :=
  (f.imports.filter (fun v => ¬ v = [])).map (fun v => (v.drop 1).dropLast)

/-- One iteration of the file loop of `Data.scan`: fold the file's
declared import paths into `ImportPaths`, then process its objects. -/
def scanFile (kind : ObjKind) (d : Data) (f : GoFile) : Except GoErr Data :=
  let paths := d.ImportPaths ++ importPathsOf f
  match scanObjects d.InputPkg paths kind d.Imports d.Funcs f.objects with
  | .error e => .error e
  | .ok (imp, funcs) =>
    .ok { d with ImportPaths := paths, Imports := imp, Funcs := funcs }

/-- The file loop of `Data.scan`. -/
def scanFiles (kind : ObjKind) (d : Data) : List GoFile → Except GoErr Data
  | [] => .ok d
  | f :: rest =>
    match scanFile kind d f with
    | .error e => .error e
    | .ok d₁ => scanFiles kind d₁ rest

/-- `sort.Strings` (ascending bytewise order). -/
def sortStrings (l : List Str) : List Str :=
  l.insertionSort (fun a b => strLeb a b = true)

/-- `sort.Slice(data.Funcs, ...)` ordering by `Name` (Go's sort is
unstable, but the recorded names are distinct, so the sorted list is
unique). -/
def sortFuncs (l : List Func) : List Func :=
  l.insertionSort (fun f g => strLeb f.Name g.Name = true)

/-- `Data.scan` from `src/main.go`: the file loop followed by the two
sorts. -/
def scan (d : Data) (files : List GoFile) (kind : ObjKind) : Except GoErr Data :=
  match scanFiles kind d files with
  | .error e => .error e
  | .ok d₁ =>
    .ok { d₁ with Imports := sortStrings d₁.Imports, Funcs := sortFuncs d₁.Funcs }

/-- The package loop of `run` (`for _, astFile := range astFiles`):
`parser.ParseDir` returns a map of packages, scanned in enumeration
order. -/
def scanPkgs (d : Data) : List (List GoFile) → Except GoErr Data
  | [] => .ok d
  | p :: rest =>
    match scan d p ObjKind.Fun with
    | .error e => .error e
    | .ok d₁ => scanPkgs d₁ rest

namespace V0

/- The second engine variant, from `src/unnamed/part_000`: its
`formatType` reads the module name from the global `data.GoPackage`
(passed here as the parameter `gp`) and performs no import
registration, and its `formatFuncResults` neither parenthesises
comma-containing result lists nor collapses doubled parentheses. -/
mutual
/-- `formatType` from `src/unnamed/part_000`. -/
def formatType (gp : Str) : Expr → Except GoErr Str
  | .nilE => .ok []
  | .ident n =>
    .ok (if !(n.contains '.') && isExported n then gp ++ str "." ++ n else n)
  | .selector x sel =>
    match formatType gp x with
    | .error e => .error e
    | .ok sx => .ok (sx ++ str "." ++ sel)
  | .star x =>
    match formatType gp x with
    | .error e => .error e
    | .ok sx => .ok (str "*" ++ sx)
  | .arr len elt =>
    match formatType gp len with
    | .error e => .error e
    | .ok sl =>
      match formatType gp elt with
      | .error e => .error e
      | .ok se => .ok (str "[" ++ sl ++ str "]" ++ se)
  | .ell elt =>
    match formatType gp elt with
    | .error e => .error e
    | .ok se => .ok se
  | .funcT params results =>
    match fieldsStr gp true params with
    | .error e => .error e
    | .ok fp =>
      match formatFuncResults gp results with
      | .error e => .error e
      | .ok fr => .ok (str "func(" ++ trimSpace fp ++ str ")" ++ fr)
  | .mapT k v =>
    match formatType gp k with
    | .error e => .error e
    | .ok sk =>
      match formatType gp v with
      | .error e => .error e
      | .ok sv => .ok (str "map[" ++ sk ++ str "]" ++ sv)
  | .chanT => .error .unsupportedChan
  | .lit v => .ok v

/-- The field loop of `formatFuncFields` from `src/unnamed/part_000`
(identical to the main variant's, minus import registration). -/
def fieldsStr (gp : Str) (inclType : Bool) : Fields → Except GoErr Str
  | .nil => .ok []
  | .cons names ty rest =>
    match (if inclType then formatType gp ty else .ok []) with
    | .error e => .error e
    | .ok t =>
      match fieldsStr gp inclType rest with
      | .error e => .error e
      | .ok s2 =>
        .ok (namesText names ++ t ++
          (match rest with | .nil => [] | .cons _ _ _ => str ", ") ++ s2)

/-- `formatFuncResults` from `src/unnamed/part_000`: parenthesises only
when there is more than one result group. -/
def formatFuncResults (gp : Str) : OFields → Except GoErr Str
  | .none => .ok []
  | .some fs =>
    match fieldsStr gp true fs with
    | .error e => .error e
    | .ok f0 =>
      .ok ((if 1 < fs.length then str "(" else []) ++ trimSpace f0 ++
        (if 1 < fs.length then str ")" else []))
end

end V0

/- Predicates on the syntax, used to state the claims. -/
mutual
/-- Whether a channel-type node occurs anywhere in a type expression. -/
def containsChan : Expr → Bool
  | .chanT => true
  | .nilE => false
  | .ident _ => false
  | .lit _ => false
  | .selector x _ => containsChan x
  | .star x => containsChan x
  | .arr len elt => containsChan len || containsChan elt
  | .ell elt => containsChan elt
  | .mapT k v => containsChan k || containsChan v
  | .funcT ps rs => containsChanFields ps || containsChanO rs

/-- `containsChan` over a field list. -/
def containsChanFields : Fields → Bool
  | .nil => false
  | .cons _ ty rest => containsChan ty || containsChanFields rest

/-- `containsChan` over an optional field list. -/
def containsChanO : OFields → Bool
  | .none => false
  | .some fs => containsChanFields fs
end

/-- Whether a type expression contains no function-type node. -/
def funcFree : Expr → Bool
  | .funcT _ _ => false
  | .nilE => true
  | .ident _ => true
  | .lit _ => true
  | .chanT => true
  | .selector x _ => funcFree x
  | .star x => funcFree x
  | .arr len elt => funcFree len && funcFree elt
  | .ell elt => funcFree elt
  | .mapT k v => funcFree k && funcFree v

/-- A malformed receiver in the sense of `formatFuncDecl`: a receiver
clause present with zero or more than one field group, or whose single
group has two or more names. -/
def malformedRecv (d : FuncDecl) : Bool :=
  match d.recv with
  | .none => false
  | .some .nil => true
  | .some (.cons _ _ (.cons _ _ _)) => true
  | .some (.cons names _ .nil) =>
    match names with
    | _ :: _ :: _ => true
    | _ => false

/-- An interface method specification: a receiver clause with exactly
one field group carrying zero names. -/
def ifaceSpec (d : FuncDecl) : Bool :=
  match d.recv with
  | .some (.cons [] _ .nil) => true
  | _ => false

/-- A declaration whose receiver shape lets `formatFuncDecl` reach the
type rendering: either no receiver, or exactly one receiver group with
exactly one name. -/
def recvShapeOk (d : FuncDecl) : Bool :=
  match d.recv with
  | .none => true
  | .some (.cons [_] _ .nil) => true
  | .some _ => false

/-- Whether a channel type occurs in any part of the declaration that
`formatFuncDecl` renders: the receiver type (when the receiver is a
single one-name group), the parameters, or the results. -/
def declHasChan (d : FuncDecl) : Bool :=
  (match d.recv with
   | .some (.cons [_] ty .nil) => containsChan ty
   | _ => false) ||
  containsChanFields d.params || containsChanO d.results

/-- The model-assembling part of `run` from `src/main.go` (lines
352–375): the initial `Data` with the seeded `ImportPaths`, the two
seed `addImport` calls, then the package loop.  Template rendering and
file writing are external collaborators acting on the result. -/
def runModel (pkgName inputPkg pre : Str) (pkgs : List (List GoFile)) :
    Except GoErr Data :=
  let outputPkg := getPackageName pre pkgName
  let d0 : Data :=
    { InputPkg := inputPkg, OutputPkg := outputPkg,
      StructName := upper1st outputPkg, JsStructName := lower1st outputPkg,
      ImportPaths := [pkgName], Imports := [], Funcs := [] }
  let d1 := { d0 with Imports := addImport d0.ImportPaths d0.Imports (str "github.com/dop251/goja") }
  let d2 := { d1 with Imports := addImport d1.ImportPaths d1.Imports pkgName }
  scanPkgs d2 pkgs

/-! ## Helper lemmas -/

/-- The first path segment of an import path (the text before the first
`/`). -/
def firstSegment (s : Str) : Str := s.takeWhile (fun c => ¬ c = '/')

theorem finishType_fst (paths : List Str) (s : Str) (imp : List Str) :
    (finishType paths s imp).1 = s := by
  unfold finishType; split <;> rfl

theorem containesFunc_iff (funcs : List Func) (n : Str) :
    containesFunc funcs n = true ↔ n ∈ funcs.map Func.Name := by
  induction funcs with
  | nil => simp [containesFunc]
  | cons f rest ih =>
    by_cases h : f.Name = n
    · subst h
      simp [containesFunc]
    · have hb : (f.Name == n) = false := beq_eq_false_iff_ne.mpr h
      simp [containesFunc, hb, ih, Ne.symm h]

/-- The suffix-resolution loop returns an element of the known paths
whenever some known path has the wanted suffix, and the returned path
has that suffix. -/
theorem resolveImport_of_exists (paths : List Str) (q : Str)
    (h : ∃ df ∈ paths, (str "/" ++ q) <:+ df) :
    resolveImport paths q ∈ paths ∧ (str "/" ++ q) <:+ resolveImport paths q := by
  induction paths with
  | nil => simp at h
  | cons df rest ih =>
    by_cases hdf : (str "/" ++ q).isSuffixOf df
    · refine ⟨?_, ?_⟩ <;> simp [resolveImport, hdf]
      exact List.isSuffixOf_iff_suffix.mp hdf
    · simp only [resolveImport, hdf, if_neg, Bool.false_eq_true, reduceIte]
      have hrest : ∃ df ∈ rest, (str "/" ++ q) <:+ df := by
        rcases h with ⟨d, hd, hsuf⟩
        rcases List.mem_cons.mp hd with rfl | hd
        · exact absurd (List.isSuffixOf_iff_suffix.mpr hsuf) hdf
        · exact ⟨d, hd, hsuf⟩
      rcases ih hrest with ⟨h1, h2⟩
      exact ⟨List.mem_cons_of_mem _ h1, h2⟩

/-! ## Claim theorems -/

/-- Claim C1: a `Named` identifier rendered by `Data.formatType` becomes
`<module>.<Identifier>` when it is exported (first character uppercase)
and carries no qualifier (no `.` in the identifier); an unexported or
already-qualified identifier is rendered verbatim. -/
theorem formatType_named_identifier (pkg : Str) (paths imp : List Str) (n : Str) :
    (formatType pkg paths imp (Expr.ident n)).map Prod.fst =
      .ok (if isExported n = true ∧ n.contains '.' = false
           then pkg ++ str "." ++ n else n) := by
  rw [formatType]
  simp only [Except.map, finishType_fst]
  by_cases h1 : n.contains '.' <;> by_cases h2 : isExported n <;>
    simp [h1, h2]

/-- Claim C2: when some already-known full import path ends with
`"/" + qualifier` (after stripping the `*` and `[]` markers), the path
that can enter the `Imports` list is the resolved full path — an element
of `ImportPaths`, distinct from the bare qualifier — and the list either
stays unchanged or gains exactly that full path. -/
theorem addImport_suffix_resolution (paths imp : List Str) (q : Str)
    (h : ∃ df ∈ paths, (str "/" ++ stripQual q) <:+ df) :
    resolveImport paths (stripQual q) ∈ paths ∧
    resolveImport paths (stripQual q) ≠ stripQual q ∧
    (addImport paths imp q = imp ∨
     addImport paths imp q = imp ++ [resolveImport paths (stripQual q)]) := by
  rcases resolveImport_of_exists paths (stripQual q) h with ⟨hmem, hsuf⟩
  refine ⟨hmem, ?_, ?_⟩
  · intro heq
    have hlen := hsuf.length_le
    rw [heq] at hlen
    simp [str, List.length_append] at hlen
  · simp only [addImport]
    split
    · exact Or.inl rfl
    · exact Or.inr rfl

/-- Witness for C2 at the spec's own example: with `encoding/json` a
known path, registering the qualifier `json` resolves to the full path
and never a bare `json` entry. -/
theorem addImport_suffix_resolution_witness :
    resolveImport [str "encoding/json"] (stripQual (str "json")) ∈ [str "encoding/json"] ∧
    resolveImport [str "encoding/json"] (stripQual (str "json")) ≠ stripQual (str "json") ∧
    (addImport [str "encoding/json"] [] (str "json") = [] ∨
     addImport [str "encoding/json"] [] (str "json") =
       [] ++ [resolveImport [str "encoding/json"] (stripQual (str "json"))]) :=
  addImport_suffix_resolution [str "encoding/json"] [] (str "json") (by decide)

/-- Counterexample to claim C3 as stated: registering the qualifier
`internal` (first path segment literally `internal`, with no further
segment) does change the `Imports` list — the guard only excludes paths
with the strict prefix `internal/`, so the entry `internal` itself is
admitted. -/
theorem addImport_internal_counterexample :
    addImport [] [] (str "internal") = [str "internal"] ∧
    firstSegment (str "internal") = str "internal" ∧
    addImport [] [] (str "internal") ≠ [] := by
  refine ⟨by decide, by decide, by decide⟩

/-- Claim C3 as amended: the `Imports` list never holds a duplicate and
never holds an entry with the prefix `internal/` (an entry that is
exactly `internal`, with no second segment, is not excluded);
registering a qualifier that resolves to an already-present path or to
an `internal/`-prefixed path leaves the list unchanged. -/
theorem addImport_invariant (paths imp : List Str) (q : Str)
    (h1 : imp.Nodup)
    (h2 : ∀ s ∈ imp, (str "internal/").isPrefixOf s = false) :
    (addImport paths imp q).Nodup ∧
    (∀ s ∈ addImport paths imp q, (str "internal/").isPrefixOf s = false) ∧
    ((resolveImport paths (stripQual q) ∈ imp ∨
      (str "internal/").isPrefixOf (resolveImport paths (stripQual q)) = true) →
      addImport paths imp q = imp) := by
  simp only [addImport]
  by_cases hc : (imp.contains (resolveImport paths (stripQual q)) ||
      (str "internal/").isPrefixOf (resolveImport paths (stripQual q))) = true
  · rw [if_pos hc]
    exact ⟨h1, h2, fun _ => rfl⟩
  · rw [if_neg hc]
    rw [Bool.or_eq_true, not_or] at hc
    obtain ⟨hc1, hc2⟩ := hc
    rw [Bool.not_eq_true] at hc1 hc2
    have hnotmem : resolveImport paths (stripQual q) ∉ imp := by
      intro hm
      rw [List.contains, List.elem_eq_mem] at hc1
      simp [hm] at hc1
    refine ⟨?_, ?_, ?_⟩
    · simp [List.nodup_append, h1, hnotmem]
    · intro s hs
      rcases List.mem_append.mp hs with hs | hs
      · exact h2 s hs
      · rcases List.mem_singleton.mp hs with rfl
        exact hc2
    · rintro (hm | hp)
      · exact absurd hm hnotmem
      · rw [hp] at hc2; cases hc2

/-- Witness for C3's amended invariant at a concrete registration. -/
theorem addImport_invariant_witness :
    (addImport [str "encoding/json"] [str "fmt"] (str "json")).Nodup ∧
    (∀ s ∈ addImport [str "encoding/json"] [str "fmt"] (str "json"),
      (str "internal/").isPrefixOf s = false) ∧
    ((resolveImport [str "encoding/json"] (stripQual (str "json")) ∈ [str "fmt"] ∨
      (str "internal/").isPrefixOf
        (resolveImport [str "encoding/json"] (stripQual (str "json"))) = true) →
      addImport [str "encoding/json"] [str "fmt"] (str "json") = [str "fmt"]) :=
  addImport_invariant [str "encoding/json"] [str "fmt"] (str "json")
    (by decide) (by decide)

/-- The `math2` module's declaration `Add(a int, b int) int` (two
one-name parameter groups, one unnamed result). -/
def addDecl : FuncDecl :=
  { recv := .none, name := str "Add",
    params := .cons [str "a"] (.ident (str "int"))
      (.cons [str "b"] (.ident (str "int")) .nil),
    results := .some (.cons [] (.ident (str "int")) .nil) }

/-- Counterexample to claim C7 as stated: for `Add(a int, b int) int`
the rendered parameter-name text is `"(a , b)"` — the name loop emits a
space after every name before the `", "` group separator, so a space
does precede the comma — not the claimed `"(a, b)"`. -/
theorem add_paramNames_counterexample :
    (formatFuncDecl (str "math2") [] [] addDecl).map (fun p => p.1.ParamNames) =
      .ok (str "(a , b)") ∧
    str "(a , b)" ≠ str "(a, b)" := by
  refine ⟨by decide, by decide⟩

/-- Claim C7 as amended: for module `math2` exposing
`Add(a int, b int) int`, the produced declaration has name `Add`,
parameter text `"(a int, b int)"`, parameter-name text `"(a , b)"`
(a space on both sides of the comma separating the two one-name
groups), result text `"int"`, and no receiver. -/
theorem add_declaration_rendering :
    formatFuncDecl (str "math2") [] [] addDecl =
      .ok ({ Name := str "Add", JsName := str "add", Receiver := [],
             Signature := [], Params := str "(a int, b int)",
             ParamNames := str "(a , b)", Results := str "int" }, []) := by
  decide

/-! ## Sortedness of the assembled model (C8) -/

theorem strLeb_cons_iff (x y : Char) (xs ys : Str) :
    strLeb (x :: xs) (y :: ys) = true ↔
      x.toNat < y.toNat ∨ (x.toNat = y.toNat ∧ strLeb xs ys = true) := by
  simp only [strLeb]
  split_ifs with h1 h2
  · simp [h1]
  · simp [show ¬ x.toNat < y.toNat from h1, show ¬ x.toNat = y.toNat from by omega]
  · have hxy : x.toNat = y.toNat := by omega
    simp [hxy]

theorem strLeb_total (a b : Str) : strLeb a b = true ∨ strLeb b a = true := by
  induction a generalizing b with
  | nil => left; rfl
  | cons x xs ih =>
    cases b with
    | nil => right; rfl
    | cons y ys =>
      by_cases hxy : x.toNat < y.toNat
      · left; rw [strLeb_cons_iff]; exact Or.inl hxy
      by_cases hyx : y.toNat < x.toNat
      · right; rw [strLeb_cons_iff]; exact Or.inl hyx
      rcases ih ys with h | h
      · left; rw [strLeb_cons_iff]; exact Or.inr ⟨by omega, h⟩
      · right; rw [strLeb_cons_iff]; exact Or.inr ⟨by omega, h⟩

theorem strLeb_trans (a : Str) : ∀ b c : Str,
    strLeb a b = true → strLeb b c = true → strLeb a c = true := by
  induction a with
  | nil => intro b c _ _; rfl
  | cons x xs ih =>
    intro b c hab hbc
    cases b with
    | nil => simp [strLeb] at hab
    | cons y ys =>
      cases c with
      | nil => simp [strLeb] at hbc
      | cons z zs =>
        rw [strLeb_cons_iff] at hab hbc ⊢
        rcases hab with h1 | ⟨h1, h1'⟩ <;> rcases hbc with h2 | ⟨h2, h2'⟩
        · exact Or.inl (by omega)
        · exact Or.inl (by omega)
        · exact Or.inl (by omega)
        · exact Or.inr ⟨by omega, ih ys zs h1' h2'⟩

instance : IsTotal Str (fun a b => strLeb a b = true) := ⟨strLeb_total⟩

instance : IsTrans Str (fun a b => strLeb a b = true) := ⟨fun a b c => strLeb_trans a b c⟩

instance : IsTotal Func (fun f g => strLeb f.Name g.Name = true) :=
  ⟨fun f g => strLeb_total f.Name g.Name⟩

instance : IsTrans Func (fun f g => strLeb f.Name g.Name = true) :=
  ⟨fun f g h => strLeb_trans f.Name g.Name h.Name⟩

/-- Every successful `Data.scan` call ends by sorting both the import
list and the declaration list. -/
theorem scan_sorted (d : Data) (files : List GoFile) (kind : ObjKind) (d' : Data)
    (h : scan d files kind = .ok d') :
    List.Sorted (fun a b => strLeb a b = true) d'.Imports ∧
    List.Sorted (fun f g => strLeb f.Name g.Name = true) d'.Funcs := by
  unfold scan at h
  cases hf : scanFiles kind d files with
  | error e => rw [hf] at h; cases h
  | ok d₁ =>
    rw [hf] at h
    injection h with h
    subst h
    exact ⟨List.sorted_insertionSort _ _, List.sorted_insertionSort _ _⟩

/-- The package loop either scanned at least one package (so the final
state was sorted by `scan`) or did nothing. -/
theorem scanPkgs_sorted_or_id (pkgs : List (List GoFile)) :
    ∀ d d' : Data, scanPkgs d pkgs = .ok d' →
    (List.Sorted (fun a b => strLeb a b = true) d'.Imports ∧
     List.Sorted (fun f g => strLeb f.Name g.Name = true) d'.Funcs) ∨
    (pkgs = [] ∧ d' = d) := by
  induction pkgs with
  | nil =>
    intro d d' h
    rw [scanPkgs] at h
    injection h with h
    exact Or.inr ⟨rfl, h.symm⟩
  | cons p rest ih =>
    intro d d' h
    rw [scanPkgs] at h
    cases hs : scan d p ObjKind.Fun with
    | error e => rw [hs] at h; cases h
    | ok d₁ =>
      rw [hs] at h
      rcases ih d₁ d' h with hsorted | ⟨_, heq⟩
      · exact Or.inl hsorted
      · rw [heq]
        exact Or.inl (scan_sorted d p ObjKind.Fun d₁ hs)

/-- Counterexample to claim C8 as stated: a run over a module directory
with zero parsed files never reaches `Data.scan`, so its two seeded
paths stay in the `Imports` list in insertion order; for a module path
`abc` the final `Imports` list is `[github.com/dop251/goja, abc]`,
which is not sorted lexically. -/
theorem runModel_unsorted_counterexample :
    runModel (str "abc") (str "m") (str "goja_go_") [] =
      .ok { InputPkg := str "m", OutputPkg := str "goja_go_abc",
            StructName := str "Goja_go_abc", JsStructName := str "goja_go_abc",
            ImportPaths := [str "abc"],
            Imports := [str "github.com/dop251/goja", str "abc"],
            Funcs := [] } ∧
    ¬ List.Sorted (fun a b => strLeb a b = true)
        [str "github.com/dop251/goja", str "abc"] := by
  constructor
  · decide
  · intro h
    have := List.rel_of_sorted_cons h (str "abc") (by simp)
    revert this
    decide

/-- Claim C8 as amended: whenever at least one package is scanned, the
finalized model's `Imports` and `Funcs` are sorted lexically (by entry,
resp. by declaration name).  (With zero parsed files the `Imports` list
is just the two seeded paths in insertion order and may be unsorted;
the embedding is pure, so the scanner's inputs are never mutated.) -/
theorem runModel_sorted (pkgName inputPkg pre : Str) (pkgs : List (List GoFile))
    (d' : Data) (hne : pkgs ≠ [])
    (hok : runModel pkgName inputPkg pre pkgs = .ok d') :
    List.Sorted (fun a b => strLeb a b = true) d'.Imports ∧
    List.Sorted (fun f g => strLeb f.Name g.Name = true) d'.Funcs := by
  simp only [runModel] at hok
  rcases scanPkgs_sorted_or_id pkgs _ d' hok with hsorted | ⟨hnil, _⟩
  · exact hsorted
  · exact absurd hnil hne

/-- The model produced by a run over module path `abc` with one package
holding zero files. -/
def emptyPkgModel : Data :=
  { InputPkg := str "m", OutputPkg := str "goja_go_abc",
    StructName := str "Goja_go_abc", JsStructName := str "goja_go_abc",
    ImportPaths := [str "abc"],
    Imports := [str "abc", str "github.com/dop251/goja"], Funcs := [] }

/-- Witness for C8's amended claim: one scanned (empty) package yields a
sorted model. -/
theorem runModel_sorted_witness :
    List.Sorted (fun a b => strLeb a b = true) emptyPkgModel.Imports ∧
    List.Sorted (fun f g => strLeb f.Name g.Name = true) emptyPkgModel.Funcs :=
  runModel_sorted (str "abc") (str "m") (str "goja_go_") [[]] emptyPkgModel
    (List.cons_ne_nil [] []) (by decide)

/-! ## Determinism and file enumeration order (C9) -/

/-- A one-file module fragment declaring `Foo()` with the given result
type name. -/
def dupFile (res : String) : GoFile :=
  { imports := [],
    objects := [(str "Foo",
      { kind := .Fun,
        decl := { recv := .none, name := str "Foo", params := .nil,
                  results := .some (.cons [] (.ident (str res)) .nil) } })] }

/-- An initial `Data` as `run` would seed it for module name `m`, with
no import paths, used as a fixed scan input. -/
def scanData0 : Data :=
  { InputPkg := str "m", OutputPkg := [], StructName := [], JsStructName := [],
    ImportPaths := [], Imports := [], Funcs := [] }

/-- Counterexample to claim C9 as stated: the same set of files (two
files both declaring `Foo`, a permutation of one another) scanned in
the two enumeration orders Go's map iteration may produce yields
different SignatureModels — each order keeps its first-seen `Foo`. -/
theorem scan_file_order_counterexample :
    [dupFile "int", dupFile "string"].Perm [dupFile "string", dupFile "int"] ∧
    scan scanData0 [dupFile "int", dupFile "string"] ObjKind.Fun ≠
      scan scanData0 [dupFile "string", dupFile "int"] ObjKind.Fun :=
  ⟨List.Perm.swap (dupFile "string") (dupFile "int") [], by decide⟩

/-- The fields of `Data` that `Data.scan` reads and writes. -/
def Data.core (d : Data) : Str × List Str × List Str × List Func :=
  (d.InputPkg, d.ImportPaths, d.Imports, d.Funcs)

/-- Claim C9 as amended: scanning is deterministic relative to the file
enumeration order — two runs over the same files in the same order,
from states agreeing on the scan-relevant fields (`InputPkg`,
`ImportPaths`, `Imports`, `Funcs`), fail identically or produce models
with identical scan-relevant fields.  (Which duplicate of a repeated
name is kept depends on the enumeration order, per the
counterexample.) -/
theorem scan_deterministic_core (files : List GoFile) (kind : ObjKind) :
    ∀ d₁ d₂ : Data, d₁.core = d₂.core →
    (scan d₁ files kind).map Data.core = (scan d₂ files kind).map Data.core := by
  have hfiles : ∀ fs : List GoFile, ∀ d₁ d₂ : Data, d₁.core = d₂.core →
      (scanFiles kind d₁ fs).map Data.core = (scanFiles kind d₂ fs).map Data.core := by
    intro fs
    induction fs with
    | nil =>
      intro d₁ d₂ h
      simp [scanFiles, Except.map, h]
    | cons f rest ih =>
      intro d₁ d₂ h
      simp only [Data.core, Prod.mk.injEq] at h
      obtain ⟨h1, h2, h3, h4⟩ := h
      rw [scanFiles, scanFiles]
      simp only [scanFile]
      rw [h1, h2, h3, h4]
      cases hso : scanObjects d₂.InputPkg (d₂.ImportPaths ++ importPathsOf f) kind
          d₂.Imports d₂.Funcs f.objects with
      | error e => rfl
      | ok p =>
        obtain ⟨imp, funcs⟩ := p
        exact ih _ _ (by simp [Data.core, h1, h2])
  intro d₁ d₂ h
  unfold scan
  have hthis := hfiles files d₁ d₂ h
  cases hf1 : scanFiles kind d₁ files with
  | error e =>
    cases hf2 : scanFiles kind d₂ files with
    | error e2 =>
      rw [hf1, hf2] at hthis
      simp only [Except.map] at hthis
      injection hthis with hthis
      simp [hthis, Except.map]
    | ok d2' =>
      rw [hf1, hf2] at hthis
      simp [Except.map] at hthis
  | ok d1' =>
    cases hf2 : scanFiles kind d₂ files with
    | error e2 =>
      rw [hf1, hf2] at hthis
      simp [Except.map] at hthis
    | ok d2' =>
      rw [hf1, hf2] at hthis
      simp only [Except.map] at hthis
      injection hthis with hthis
      simp only [Data.core, Prod.mk.injEq] at hthis
      obtain ⟨h1, h2, h3, h4⟩ := hthis
      simp [Except.map, Data.core, sortStrings, sortFuncs, h1, h2, h3, h4]

/-- Witness for C9's amended claim: two scans over the same one-file
module in the same enumeration order, from seeds differing only in the
non-scan fields, agree on the scan-relevant fields. -/
theorem scan_deterministic_core_witness :
    (scan scanData0 [dupFile "int"] ObjKind.Fun).map Data.core =
      (scan { scanData0 with OutputPkg := str "x" } [dupFile "int"]
        ObjKind.Fun).map Data.core :=
  scan_deterministic_core [dupFile "int"] ObjKind.Fun scanData0
    { scanData0 with OutputPkg := str "x" } (by decide)

/-! ## Agreement of the two engine variants (C10) -/

/-- A function-type node with a single two-name result group,
`func() (a, b int)`. -/
def twoNameResultFn : Expr :=
  .funcT .nil (.some (.cons [str "a", str "b"] (.ident (str "int")) .nil))

/-- Counterexample to claim C10 as stated: on `func() (a, b int)` the
main variant parenthesises the comma-containing result list
(`func()(a, b int)`) while the second variant does not
(`func()a, b int`). -/
theorem variants_disagree_counterexample :
    (formatType (str "m") [] [] twoNameResultFn).map Prod.fst =
      .ok (str "func()(a, b int)") ∧
    V0.formatType (str "m") twoNameResultFn = .ok (str "func()a, b int") ∧
    (Except.ok (str "func()(a, b int)") : Except GoErr Str) ≠
      .ok (str "func()a, b int") := by
  refine ⟨by decide, by decide, by decide⟩

/-- Claim C10 as amended: the two variants render character-for-character
identical text (and fail identically on channel types) for every type
node containing no function-type node; on function-type nodes they can
differ, because only the main variant's `formatFuncResults`
parenthesises comma-containing result lists and collapses doubled
parentheses. -/
theorem formatType_funcFree_agree (pkg : Str) (paths imp : List Str) (e : Expr)
    (h : funcFree e = true) :
    (formatType pkg paths imp e).map Prod.fst = V0.formatType pkg e := by
  match e with
  | .nilE => simp [formatType, V0.formatType, Except.map, finishType_fst]
  | .ident n => simp [formatType, V0.formatType, Except.map, finishType_fst]
  | .lit v => simp [formatType, V0.formatType, Except.map, finishType_fst]
  | .chanT => simp [formatType, V0.formatType, Except.map]
  | .selector x sel =>
    have hx : funcFree x = true := by simpa [funcFree] using h
    have ih := formatType_funcFree_agree pkg paths imp x hx
    cases hfx : formatType pkg paths imp x with
    | error e1 =>
      rw [hfx] at ih
      simp only [Except.map] at ih
      simp [formatType, V0.formatType, hfx, ← ih, Except.map]
    | ok p =>
      obtain ⟨sx, imp₁⟩ := p
      rw [hfx] at ih
      simp only [Except.map] at ih
      simp [formatType, V0.formatType, hfx, ← ih, Except.map, finishType_fst]
  | .star x =>
    have hx : funcFree x = true := by simpa [funcFree] using h
    have ih := formatType_funcFree_agree pkg paths imp x hx
    cases hfx : formatType pkg paths imp x with
    | error e1 =>
      rw [hfx] at ih
      simp only [Except.map] at ih
      simp [formatType, V0.formatType, hfx, ← ih, Except.map]
    | ok p =>
      obtain ⟨sx, imp₁⟩ := p
      rw [hfx] at ih
      simp only [Except.map] at ih
      simp [formatType, V0.formatType, hfx, ← ih, Except.map, finishType_fst]
  | .ell x =>
    have hx : funcFree x = true := by simpa [funcFree] using h
    have ih := formatType_funcFree_agree pkg paths imp x hx
    cases hfx : formatType pkg paths imp x with
    | error e1 =>
      rw [hfx] at ih
      simp only [Except.map] at ih
      simp [formatType, V0.formatType, hfx, ← ih, Except.map]
    | ok p =>
      obtain ⟨sx, imp₁⟩ := p
      rw [hfx] at ih
      simp only [Except.map] at ih
      simp [formatType, V0.formatType, hfx, ← ih, Except.map, finishType_fst]
  | .arr len elt =>
    have hlen : funcFree len = true := by
      have h' := h
      simp only [funcFree, Bool.and_eq_true] at h'
      exact h'.1
    have helt : funcFree elt = true := by
      have h' := h
      simp only [funcFree, Bool.and_eq_true] at h'
      exact h'.2
    have ih1 := formatType_funcFree_agree pkg paths imp len hlen
    cases hf1 : formatType pkg paths imp len with
    | error e1 =>
      rw [hf1] at ih1
      simp only [Except.map] at ih1
      simp [formatType, V0.formatType, hf1, ← ih1, Except.map]
    | ok p =>
      obtain ⟨sl, imp₁⟩ := p
      rw [hf1] at ih1
      simp only [Except.map] at ih1
      have ih2 := formatType_funcFree_agree pkg paths imp₁ elt helt
      cases hf2 : formatType pkg paths imp₁ elt with
      | error e2 =>
        rw [hf2] at ih2
        simp only [Except.map] at ih2
        simp [formatType, V0.formatType, hf1, hf2, ← ih1, ← ih2, Except.map]
      | ok p2 =>
        obtain ⟨se, imp₂⟩ := p2
        rw [hf2] at ih2
        simp only [Except.map] at ih2
        simp [formatType, V0.formatType, hf1, hf2, ← ih1, ← ih2, Except.map,
          finishType_fst]
  | .mapT k v =>
    have hk : funcFree k = true := by
      have h' := h
      simp only [funcFree, Bool.and_eq_true] at h'
      exact h'.1
    have hv : funcFree v = true := by
      have h' := h
      simp only [funcFree, Bool.and_eq_true] at h'
      exact h'.2
    have ih1 := formatType_funcFree_agree pkg paths imp k hk
    cases hf1 : formatType pkg paths imp k with
    | error e1 =>
      rw [hf1] at ih1
      simp only [Except.map] at ih1
      simp [formatType, V0.formatType, hf1, ← ih1, Except.map]
    | ok p =>
      obtain ⟨sk, imp₁⟩ := p
      rw [hf1] at ih1
      simp only [Except.map] at ih1
      have ih2 := formatType_funcFree_agree pkg paths imp₁ v hv
      cases hf2 : formatType pkg paths imp₁ v with
      | error e2 =>
        rw [hf2] at ih2
        simp only [Except.map] at ih2
        simp [formatType, V0.formatType, hf1, hf2, ← ih1, ← ih2, Except.map]
      | ok p2 =>
        obtain ⟨sv, imp₂⟩ := p2
        rw [hf2] at ih2
        simp only [Except.map] at ih2
        simp [formatType, V0.formatType, hf1, hf2, ← ih1, ← ih2, Except.map,
          finishType_fst]
  | .funcT ps rs => simp [funcFree] at h

/-- Witness for C10's amended claim at a function-free node. -/
theorem formatType_funcFree_agree_witness :
    (formatType (str "widget") [] []
      (.star (.ident (str "Thing")))).map Prod.fst =
      V0.formatType (str "widget") (.star (.ident (str "Thing"))) :=
  formatType_funcFree_agree (str "widget") [] []
    (.star (.ident (str "Thing"))) (by decide)

/-! ## Channel faults (C5, C6) -/

mutual
/-- `formatType` fails — always with the unsupported-chan fault — exactly
on the expressions containing a channel node, and succeeds otherwise. -/
theorem formatType_chan_dichotomy (pkg : Str) (paths imp : List Str) (e : Expr) :
    (containsChan e = true ∧
      formatType pkg paths imp e = .error .unsupportedChan) ∨
    (containsChan e = false ∧
      ∃ out, formatType pkg paths imp e = .ok out) := by
  match e with
  | .nilE => exact Or.inr ⟨rfl, _, rfl⟩
  | .ident n => exact Or.inr ⟨rfl, _, rfl⟩
  | .lit v => exact Or.inr ⟨rfl, _, rfl⟩
  | .chanT => exact Or.inl ⟨rfl, rfl⟩
  | .selector x sel =>
    rcases formatType_chan_dichotomy pkg paths imp x with ⟨hc, he⟩ | ⟨hc, out, hok⟩
    · exact Or.inl ⟨by simp [containsChan, hc], by simp [formatType, he]⟩
    · obtain ⟨sx, imp₁⟩ := out
      exact Or.inr ⟨by simp [containsChan, hc], _,
        by simp only [formatType]; rw [hok]⟩
  | .star x =>
    rcases formatType_chan_dichotomy pkg paths imp x with ⟨hc, he⟩ | ⟨hc, out, hok⟩
    · exact Or.inl ⟨by simp [containsChan, hc], by simp [formatType, he]⟩
    · obtain ⟨sx, imp₁⟩ := out
      exact Or.inr ⟨by simp [containsChan, hc], _,
        by simp only [formatType]; rw [hok]⟩
  | .ell x =>
    rcases formatType_chan_dichotomy pkg paths imp x with ⟨hc, he⟩ | ⟨hc, out, hok⟩
    · exact Or.inl ⟨by simp [containsChan, hc], by simp [formatType, he]⟩
    · obtain ⟨sx, imp₁⟩ := out
      exact Or.inr ⟨by simp [containsChan, hc], _,
        by simp only [formatType]; rw [hok]⟩
  | .arr len elt =>
    rcases formatType_chan_dichotomy pkg paths imp len with ⟨hc, he⟩ | ⟨hc, out, hok⟩
    · exact Or.inl ⟨by simp [containsChan, hc], by simp [formatType, he]⟩
    · obtain ⟨sl, imp₁⟩ := out
      rcases formatType_chan_dichotomy pkg paths imp₁ elt with
        ⟨hc2, he2⟩ | ⟨hc2, out2, hok2⟩
      · exact Or.inl ⟨by simp [containsChan, hc, hc2],
          by simp [formatType, hok, he2]⟩
      · obtain ⟨se, imp₂⟩ := out2
        exact Or.inr ⟨by simp [containsChan, hc, hc2], _,
          by simp only [formatType, hok, hok2]; exact rfl⟩
  | .mapT k v =>
    rcases formatType_chan_dichotomy pkg paths imp k with ⟨hc, he⟩ | ⟨hc, out, hok⟩
    · exact Or.inl ⟨by simp [containsChan, hc], by simp [formatType, he]⟩
    · obtain ⟨sk, imp₁⟩ := out
      rcases formatType_chan_dichotomy pkg paths imp₁ v with
        ⟨hc2, he2⟩ | ⟨hc2, out2, hok2⟩
      · exact Or.inl ⟨by simp [containsChan, hc, hc2],
          by simp [formatType, hok, he2]⟩
      · obtain ⟨sv, imp₂⟩ := out2
        exact Or.inr ⟨by simp [containsChan, hc, hc2], _,
          by simp only [formatType, hok, hok2]; exact rfl⟩
  | .funcT ps rs =>
    rcases fieldsStr_chan_dichotomy pkg paths imp true ps with
      ⟨⟨_, hcf⟩, he⟩ | ⟨hn, out, hok⟩
    · exact Or.inl ⟨by simp [containsChan, hcf], by simp [formatType, he]⟩
    · have hcf : containsChanFields ps = false := by
        simpa using hn
      obtain ⟨sp, imp₁⟩ := out
      rcases formatFuncResults_chan_dichotomy pkg paths imp₁ rs with
        ⟨hc2, he2⟩ | ⟨hc2, out2, hok2⟩
      · exact Or.inl ⟨by simp [containsChan, hcf, hc2],
          by simp [formatType, hok, he2]⟩
      · obtain ⟨sr, imp₂⟩ := out2
        exact Or.inr ⟨by simp [containsChan, hcf, hc2], _,
          by simp only [formatType, hok, hok2]; exact rfl⟩

/-- The field loop fails — always with the unsupported-chan fault —
exactly when it renders types (`inclType`) and a channel node occurs in
some group's type, and succeeds otherwise. -/
theorem fieldsStr_chan_dichotomy (pkg : Str) (paths imp : List Str)
    (incl : Bool) (fs : Fields) :
    ((incl = true ∧ containsChanFields fs = true) ∧
      fieldsStr pkg paths imp incl fs = .error .unsupportedChan) ∨
    (¬ (incl = true ∧ containsChanFields fs = true) ∧
      ∃ out, fieldsStr pkg paths imp incl fs = .ok out) := by
  match fs with
  | .nil =>
    refine Or.inr ⟨?_, _, rfl⟩
    simp [containsChanFields]
  | .cons names ty rest =>
    cases incl with
    | false =>
      rcases fieldsStr_chan_dichotomy pkg paths imp false rest with
        ⟨⟨hfalse, _⟩, _⟩ | ⟨_, out, hok⟩
      · cases hfalse
      · obtain ⟨s2, imp₂⟩ := out
        exact Or.inr ⟨by simp, _, by simp [fieldsStr, hok]; exact rfl⟩
    | true =>
      rcases formatType_chan_dichotomy pkg paths imp ty with
        ⟨hc, he⟩ | ⟨hc, out, hok⟩
      · exact Or.inl ⟨⟨rfl, by simp [containsChanFields, hc]⟩,
          by simp [fieldsStr, he]⟩
      · obtain ⟨t, imp₁⟩ := out
        rcases fieldsStr_chan_dichotomy pkg paths imp₁ true rest with
          ⟨⟨_, hcr⟩, he2⟩ | ⟨hn2, out2, hok2⟩
        · exact Or.inl ⟨⟨rfl, by simp [containsChanFields, hcr]⟩,
            by simp [fieldsStr, hok, he2]⟩
        · have hcr : containsChanFields rest = false := by simpa using hn2
          obtain ⟨s2, imp₂⟩ := out2
          exact Or.inr ⟨by simp [containsChanFields, hc, hcr], _,
            by simp [fieldsStr, hok, hok2]; exact rfl⟩

/-- `formatFuncResults` fails — always with the unsupported-chan fault —
exactly when a channel node occurs in the result list, and succeeds
otherwise. -/
theorem formatFuncResults_chan_dichotomy (pkg : Str) (paths imp : List Str)
    (rs : OFields) :
    (containsChanO rs = true ∧
      formatFuncResults pkg paths imp rs = .error .unsupportedChan) ∨
    (containsChanO rs = false ∧
      ∃ out, formatFuncResults pkg paths imp rs = .ok out) := by
  match rs with
  | .none => exact Or.inr ⟨rfl, _, rfl⟩
  | .some fs =>
    rcases fieldsStr_chan_dichotomy pkg paths imp true fs with
      ⟨⟨_, hcf⟩, he⟩ | ⟨hn, out, hok⟩
    · exact Or.inl ⟨by simp [containsChanO, hcf],
        by simp [formatFuncResults, he]⟩
    · have hcf : containsChanFields fs = false := by simpa using hn
      obtain ⟨f0, imp₁⟩ := out
      exact Or.inr ⟨by simp [containsChanO, hcf], _,
        by simp [formatFuncResults, hok]; exact rfl⟩
end

/-- `Data.formatFuncFields` (field loop plus trim) inherits the
channel-fault dichotomy of the field loop. -/
theorem formatFuncFields_chan_dichotomy (pkg : Str) (paths imp : List Str)
    (fs : Fields) (incl : Bool) :
    ((incl = true ∧ containsChanFields fs = true) ∧
      formatFuncFields pkg paths imp fs incl = .error .unsupportedChan) ∨
    (¬ (incl = true ∧ containsChanFields fs = true) ∧
      ∃ out, formatFuncFields pkg paths imp fs incl = .ok out) := by
  rcases fieldsStr_chan_dichotomy pkg paths imp incl fs with ⟨hc, he⟩ | ⟨hn, out, hok⟩
  · exact Or.inl ⟨hc, by simp [formatFuncFields, he]⟩
  · obtain ⟨s, i⟩ := out
    exact Or.inr ⟨hn, _, by simp only [formatFuncFields, hok]; exact rfl⟩

/-- `buildFunc` fails — always with the unsupported-chan fault — exactly
when a channel node occurs in the parameters or results. -/
theorem buildFunc_chan_dichotomy (pkg : Str) (paths imp : List Str)
    (decl : FuncDecl) (recvStr : Str) :
    ((containsChanFields decl.params || containsChanO decl.results) = true ∧
      buildFunc pkg paths imp decl recvStr = .error .unsupportedChan) ∨
    ((containsChanFields decl.params || containsChanO decl.results) = false ∧
      ∃ out, buildFunc pkg paths imp decl recvStr = .ok out) := by
  rcases formatFuncFields_chan_dichotomy pkg paths imp decl.params true with
    ⟨⟨_, hcp⟩, he⟩ | ⟨hn, out, hok⟩
  · exact Or.inl ⟨by simp [hcp], by simp [buildFunc, he]⟩
  · have hcp : containsChanFields decl.params = false := by simpa using hn
    obtain ⟨ps, imp₁⟩ := out
    rcases formatFuncFields_chan_dichotomy pkg paths imp₁ decl.params false with
      ⟨⟨hfalse, _⟩, _⟩ | ⟨_, out2, hok2⟩
    · cases hfalse
    · obtain ⟨pn, imp₂⟩ := out2
      rcases formatFuncResults_chan_dichotomy pkg paths imp₂ decl.results with
        ⟨hcr, he3⟩ | ⟨hcr, out3, hok3⟩
      · exact Or.inl ⟨by simp [hcp, hcr],
          by simp only [buildFunc, hok, hok2, he3]⟩
      · obtain ⟨rs, imp₃⟩ := out3
        exact Or.inr ⟨by simp [hcp, hcr], _,
          by simp only [buildFunc, hok, hok2, hok3]; exact rfl⟩

/-- Any successful `buildFunc` names the produced `Func` after the
declaration and installs the given receiver text. -/
theorem buildFunc_ok_name (pkg : Str) (paths imp : List Str) (decl : FuncDecl)
    (recvStr : Str) (f : Func) (imp' : List Str)
    (h : buildFunc pkg paths imp decl recvStr = .ok (f, imp')) :
    f.Name = decl.name ∧ f.Receiver = recvStr := by
  simp only [buildFunc] at h
  split at h
  · cases h
  · split at h
    · cases h
    · split at h
      · cases h
      · injection h with h
        have hf := congrArg Prod.fst h
        simp only at hf
        rw [← hf]
        exact ⟨rfl, rfl⟩

/-- Any successful `formatFuncDecl` either names the produced `Func`
after the declaration, or (for an interface method specification)
returns the zero `Func`. -/
theorem formatFuncDecl_ok_name (pkg : Str) (paths imp : List Str)
    (decl : FuncDecl) (f : Func) (imp' : List Str)
    (h : formatFuncDecl pkg paths imp decl = .ok (f, imp')) :
    f.Name = decl.name ∨ f = emptyFunc := by
  obtain ⟨recv, name, params, results⟩ := decl
  cases recv with
  | none => exact Or.inl (buildFunc_ok_name _ _ _ _ _ _ _ h).1
  | some fl =>
    cases fl with
    | nil => cases h
    | cons names ty rest =>
      cases rest with
      | cons a b c => cases h
      | nil =>
        cases names with
        | nil =>
          simp only [formatFuncDecl] at h
          injection h with h
          have hf := congrArg Prod.fst h
          simp only at hf
          exact Or.inr hf.symm
        | cons n1 ns =>
          cases ns with
          | cons n2 ns2 => cases h
          | nil =>
            simp only [formatFuncDecl] at h
            split at h
            · cases h
            · exact Or.inl (buildFunc_ok_name _ _ _ _ _ _ _ h).1

/-- With a well-shaped receiver (none, or one group with one name), a
successful `formatFuncDecl` always names the `Func` after the
declaration. -/
theorem formatFuncDecl_ok_name_of_shape (pkg : Str) (paths imp : List Str)
    (decl : FuncDecl) (f : Func) (imp' : List Str)
    (hshape : recvShapeOk decl = true)
    (h : formatFuncDecl pkg paths imp decl = .ok (f, imp')) :
    f.Name = decl.name := by
  obtain ⟨recv, name, params, results⟩ := decl
  cases recv with
  | none => exact (buildFunc_ok_name _ _ _ _ _ _ _ h).1
  | some fl =>
    cases fl with
    | nil => cases h
    | cons names ty rest =>
      cases rest with
      | cons a b c => cases h
      | nil =>
        cases names with
        | nil => simp [recvShapeOk] at hshape
        | cons n1 ns =>
          cases ns with
          | cons n2 ns2 => cases h
          | nil =>
            simp only [formatFuncDecl] at h
            split at h
            · cases h
            · exact (buildFunc_ok_name _ _ _ _ _ _ _ h).1

/-- An interface method specification is returned as the zero `Func`
without touching the imports. -/
theorem formatFuncDecl_iface (pkg : Str) (paths imp : List Str)
    (decl : FuncDecl) (hspec : ifaceSpec decl = true) :
    formatFuncDecl pkg paths imp decl = .ok (emptyFunc, imp) := by
  obtain ⟨recv, name, params, results⟩ := decl
  cases recv with
  | none => simp [ifaceSpec] at hspec
  | some fl =>
    cases fl with
    | nil => simp [ifaceSpec] at hspec
    | cons names ty rest =>
      cases rest with
      | cons a b c => simp [ifaceSpec] at hspec
      | nil =>
        cases names with
        | cons n1 ns => simp [ifaceSpec] at hspec
        | nil => rfl

/-- With a receiver shape that passes the structural checks and a
channel anywhere in the rendered parts, `formatFuncDecl` fails with the
unsupported-chan fault, for every import state. -/
theorem formatFuncDecl_chan_error (decl : FuncDecl)
    (hshape : recvShapeOk decl = true) (hchan : declHasChan decl = true) :
    ∀ pkg paths imp, formatFuncDecl pkg paths imp decl = .error .unsupportedChan := by
  intro pkg paths imp
  obtain ⟨recv, name, params, results⟩ := decl
  cases recv with
  | none =>
    have hc : (containsChanFields params || containsChanO results) = true := by
      simpa [declHasChan] using hchan
    rcases buildFunc_chan_dichotomy pkg paths imp ⟨.none, name, params, results⟩ []
      with ⟨_, he⟩ | ⟨hcf, _⟩
    · simpa [formatFuncDecl] using he
    · simp only at hcf
      rw [hc] at hcf
      cases hcf
  | some fl =>
    cases fl with
    | nil => simp [recvShapeOk] at hshape
    | cons names ty rest =>
      cases rest with
      | cons a b c => simp [recvShapeOk] at hshape
      | nil =>
        cases names with
        | nil => simp [recvShapeOk] at hshape
        | cons n1 ns =>
          cases ns with
          | cons n2 ns2 => simp [recvShapeOk] at hshape
          | nil =>
            have hchan' : (containsChan ty ||
                (containsChanFields params || containsChanO results)) = true := by
              simpa [declHasChan, Bool.or_assoc] using hchan
            rcases formatType_chan_dichotomy pkg paths imp ty with
              ⟨hct, he⟩ | ⟨hct, out, hok⟩
            · simp [formatFuncDecl, he]
            · obtain ⟨t, imp₁⟩ := out
              have hc2 : (containsChanFields params || containsChanO results) = true := by
                rw [hct] at hchan'
                simpa using hchan'
              rcases buildFunc_chan_dichotomy pkg paths imp₁
                ⟨.some (.cons [n1] ty .nil), name, params, results⟩
                (str "(" ++ n1 ++ str " " ++ t ++ str ") ")
                with ⟨_, he2⟩ | ⟨hcf, _⟩
              · simp only [formatFuncDecl, hok]
                simpa using he2
              · simp only at hcf
                rw [hc2] at hcf
                cases hcf

/-- Claim C6: `formatFuncDecl` fails with a structural (strange-receiver)
fault if and only if the receiver is malformed (a receiver clause with
zero or more than one field group, or a single group with two or more
names); a single receiver group with zero names — an interface method
specification — is not a fault: it yields the zero `Func`, which the
object loop skips, recording no declaration. -/
theorem receiver_fault_characterization :
    (∀ pkg paths imp decl,
      (∃ e, formatFuncDecl pkg paths imp decl = .error e ∧ e.structural = true) ↔
        malformedRecv decl = true) ∧
    (∀ pkg paths kind imp funcs name obj rest, ifaceSpec obj.decl = true →
      formatFuncDecl pkg paths imp obj.decl = .ok (emptyFunc, imp) ∧
      scanObjects pkg paths kind imp funcs ((name, obj) :: rest) =
        scanObjects pkg paths kind imp funcs rest) := by
  constructor
  · intro pkg paths imp decl
    constructor
    · rintro ⟨e, he, hs⟩
      obtain ⟨recv, name, params, results⟩ := decl
      cases recv with
      | none =>
        have he' : buildFunc pkg paths imp ⟨.none, name, params, results⟩ [] =
            .error e := he
        rcases buildFunc_chan_dichotomy pkg paths imp
            ⟨.none, name, params, results⟩ [] with ⟨_, he2⟩ | ⟨_, out, hok⟩
        · rw [he'] at he2
          injection he2 with he2
          subst he2
          simp [GoErr.structural] at hs
        · rw [hok] at he'
          cases he'
      | some fl =>
        cases fl with
        | nil => simp [malformedRecv]
        | cons names ty rest =>
          cases rest with
          | cons a b c => simp [malformedRecv]
          | nil =>
            cases names with
            | nil => simp [formatFuncDecl] at he
            | cons n1 ns =>
              cases ns with
              | cons n2 ns2 => simp [malformedRecv]
              | nil =>
                rcases formatType_chan_dichotomy pkg paths imp ty with
                  ⟨hct, hef⟩ | ⟨hct, out, hokf⟩
                · simp only [formatFuncDecl, hef] at he
                  injection he with he
                  subst he
                  simp [GoErr.structural] at hs
                · obtain ⟨t, imp₁⟩ := out
                  simp only [formatFuncDecl, hokf] at he
                  rcases buildFunc_chan_dichotomy pkg paths imp₁
                      ⟨.some (.cons [n1] ty .nil), name, params, results⟩
                      (str "(" ++ n1 ++ str " " ++ t ++ str ") ")
                      with ⟨_, he2⟩ | ⟨_, out2, hok2⟩
                  · rw [he] at he2
                    injection he2 with he2
                    subst he2
                    simp [GoErr.structural] at hs
                  · rw [hok2] at he
                    cases he
    · intro hm
      obtain ⟨recv, name, params, results⟩ := decl
      cases recv with
      | none => simp [malformedRecv] at hm
      | some fl =>
        cases fl with
        | nil => exact ⟨.strangeReceiver name, rfl, rfl⟩
        | cons names ty rest =>
          cases rest with
          | cons a b c => exact ⟨.strangeReceiver name, rfl, rfl⟩
          | nil =>
            cases names with
            | nil => simp [malformedRecv] at hm
            | cons n1 ns =>
              cases ns with
              | nil => simp [malformedRecv] at hm
              | cons n2 ns2 => exact ⟨.strangeReceiverField name, rfl, rfl⟩
  · intro pkg paths kind imp funcs name obj rest hspec
    have hfd := formatFuncDecl_iface pkg paths imp obj.decl hspec
    refine ⟨hfd, ?_⟩
    simp only [scanObjects]
    split
    · simp [hfd, emptyFunc]
    · rfl

/-- A method declaration with a two-name receiver group,
`func (a, b T) M()`. -/
def badRecvDecl : FuncDecl :=
  { recv := .some (.cons [str "a", str "b"] (.ident (str "T")) .nil),
    name := str "M", params := .nil, results := .none }

/-- An interface method specification: a receiver group with zero
names. -/
def ifaceDecl : FuncDecl :=
  { recv := .some (.cons [] (.ident (str "T")) .nil),
    name := str "M2", params := .nil, results := .none }

/-- Witness for C6 at concrete declarations: the two-name receiver is a
structural fault; the zero-name receiver group is silently skipped. -/
theorem receiver_fault_characterization_witness :
    (∃ e, formatFuncDecl (str "m") [] [] badRecvDecl = .error e ∧
      e.structural = true) ∧
    (formatFuncDecl (str "m") [] [] ifaceDecl = .ok (emptyFunc, []) ∧
      scanObjects (str "m") [] ObjKind.Fun [] []
        [(str "M2", ⟨ObjKind.Fun, ifaceDecl⟩)] =
        scanObjects (str "m") [] ObjKind.Fun [] [] []) :=
  ⟨(receiver_fault_characterization.1 (str "m") [] [] badRecvDecl).mpr (by decide),
   receiver_fault_characterization.2 (str "m") [] ObjKind.Fun [] [] (str "M2")
     ⟨ObjKind.Fun, ifaceDecl⟩ [] (by decide)⟩

/-! ## Scan-level lemmas (C4, C5) -/

/-- The object loop only appends to the recorded declarations, and every
appended declaration is named after some object's declaration in the
processed list. -/
theorem scanObjects_funcs_shape (pkg : Str) (paths : List Str) (kind : ObjKind) :
    ∀ (objs : List (Str × Object)) (imp : List Str) (funcs : List Func)
      (imp' : List Str) (funcs' : List Func),
    scanObjects pkg paths kind imp funcs objs = .ok (imp', funcs') →
    ∃ ext, funcs' = funcs ++ ext ∧
      ∀ m ∈ ext.map Func.Name, ∃ p ∈ objs, (p : Str × Object).2.decl.name = m := by
  intro objs
  induction objs with
  | nil =>
    intro imp funcs imp' funcs' h
    simp only [scanObjects] at h
    injection h with h
    have hf := congrArg Prod.snd h
    simp only at hf
    exact ⟨[], by simp [hf], fun m hm => by simp at hm⟩
  | cons p rest ih =>
    intro imp funcs imp' funcs' h
    obtain ⟨name, obj⟩ := p
    simp only [scanObjects] at h
    split at h
    · cases hfd : formatFuncDecl pkg paths imp obj.decl with
      | error e => rw [hfd] at h; cases h
      | ok q =>
        obtain ⟨f, imp₁⟩ := q
        simp only [hfd] at h
        by_cases hfn : f.Name = []
        · rw [if_pos hfn] at h
          rcases ih imp₁ funcs imp' funcs' h with ⟨ext, h1, h2⟩
          refine ⟨ext, h1, fun m hm => ?_⟩
          rcases h2 m hm with ⟨q, hq1, hq2⟩
          exact ⟨q, List.mem_cons_of_mem _ hq1, hq2⟩
        · rw [if_neg hfn] at h
          rcases ih imp₁ (funcs ++ [f]) imp' funcs' h with ⟨ext, h1, h2⟩
          refine ⟨f :: ext, by simp [h1], fun m hm => ?_⟩
          have hm2 : m = f.Name ∨ ∃ a ∈ ext, Func.Name a = m := by simpa using hm
          rcases hm2 with hmf | ⟨a, ha, ham⟩
          · have hname : f.Name = obj.decl.name := by
              rcases formatFuncDecl_ok_name pkg paths imp obj.decl f imp₁ hfd with
                hh | hh
              · exact hh
              · rw [hh] at hfn; simp [emptyFunc] at hfn
            exact ⟨(name, obj), List.mem_cons_self _ _, by rw [hmf, hname]⟩
          · rcases h2 m (List.mem_map.mpr ⟨a, ha, ham⟩) with ⟨q, hq1, hq2⟩
            exact ⟨q, List.mem_cons_of_mem _ hq1, hq2⟩
    · rcases ih imp funcs imp' funcs' h with ⟨ext, h1, h2⟩
      refine ⟨ext, h1, fun m hm => ?_⟩
      rcases h2 m hm with ⟨q, hq1, hq2⟩
      exact ⟨q, List.mem_cons_of_mem _ hq1, hq2⟩

/-- If an object whose declaration always fails is reachable in the
object loop — exported, of the scanned kind, its name not yet recorded
and not recorded by any earlier object of the list — the loop fails. -/
theorem scanObjects_error_reach (pkg : Str) (paths : List Str) (kind : ObjKind)
    (n : Str) (obj : Object) :
    ∀ (objs : List (Str × Object)) (imp : List Str) (funcs : List Func),
    (∀ p ∈ objs, (p : Str × Object).1 = p.2.decl.name) →
    (n, obj) ∈ objs →
    (objs.map Prod.fst).count n ≤ 1 →
    containesFunc funcs n = false →
    obj.kind = kind → isExported n = true →
    (∀ pkg' paths' imp₀, formatFuncDecl pkg' paths' imp₀ obj.decl =
      .error .unsupportedChan) →
    ∃ e, scanObjects pkg paths kind imp funcs objs = .error e := by
  intro objs
  induction objs with
  | nil => intro imp funcs _ hmem _ _ _ _ _; cases hmem
  | cons p rest ih =>
    intro imp funcs hwf hmem hcount hnf hkind hexp hfail
    obtain ⟨k, o⟩ := p
    have hwfrest : ∀ p ∈ rest, (p : Str × Object).1 = p.2.decl.name :=
      fun p hp => hwf p (List.mem_cons_of_mem _ hp)
    have hcountrest : (rest.map Prod.fst).count n ≤ 1 := by
      refine le_trans ?_ hcount
      simp only [List.map_cons]
      exact List.count_le_count_cons n k (rest.map Prod.fst)
    rcases List.mem_cons.mp hmem with heq | hmem'
    · injection heq with hk ho
      subst hk
      subst ho
      refine ⟨.unsupportedChan, ?_⟩
      simp only [scanObjects]
      rw [if_pos ⟨hkind, hexp, hnf⟩, hfail pkg paths imp]
    · have hkn : k ≠ n := by
        intro hkn
        have h1 : n ∈ rest.map Prod.fst :=
          List.mem_map_of_mem Prod.fst hmem'
        have h2 : 0 < (rest.map Prod.fst).count n := List.count_pos_iff.mpr h1
        rw [hkn] at hcount
        simp only [List.map_cons, List.count_cons_self] at hcount
        omega
      by_cases hguard : (o.kind = kind ∧ isExported k = true ∧
          containesFunc funcs k = false)
      · cases hfd : formatFuncDecl pkg paths imp o.decl with
        | error e =>
          refine ⟨e, ?_⟩
          simp only [scanObjects]
          rw [if_pos hguard, hfd]
        | ok q =>
          obtain ⟨f, imp₁⟩ := q
          by_cases hfn : f.Name = []
          · rcases ih imp₁ funcs hwfrest hmem' hcountrest hnf hkind hexp hfail
              with ⟨e, he⟩
            refine ⟨e, ?_⟩
            simp only [scanObjects, hfd]
            rw [if_pos hguard, if_pos hfn]
            exact he
          · have hfname : f.Name = o.decl.name := by
              rcases formatFuncDecl_ok_name pkg paths imp o.decl f imp₁ hfd with
                hh | hh
              · exact hh
              · rw [hh] at hfn; simp [emptyFunc] at hfn
            have hko : k = o.decl.name := hwf (k, o) (List.mem_cons_self _ _)
            have hnf' : containesFunc (funcs ++ [f]) n = false := by
              rw [Bool.eq_false_iff]
              intro hc
              rw [containesFunc_iff, List.map_append] at hc
              rcases List.mem_append.mp hc with hc | hc
              · have := (containesFunc_iff funcs n).mpr hc
                rw [hnf] at this
                cases this
              · simp only [List.map_cons, List.map_nil,
                  List.mem_singleton] at hc
                rw [hc, hfname, ← hko] at hkn
                exact hkn rfl
            rcases ih imp₁ (funcs ++ [f]) hwfrest hmem' hcountrest hnf' hkind
              hexp hfail with ⟨e, he⟩
            refine ⟨e, ?_⟩
            simp only [scanObjects, hfd]
            rw [if_pos hguard, if_neg hfn]
            exact he
      · rcases ih imp funcs hwfrest hmem' hcountrest hnf hkind hexp hfail
          with ⟨e, he⟩
        refine ⟨e, ?_⟩
        simp only [scanObjects]
        rw [if_neg hguard]
        exact he

/-- Lifting `scanObjects_error_reach` over the file loop: if some file
holds an always-failing, reachable object whose name occurs only once
among all files' scope keys, the file loop fails. -/
theorem scanFiles_error_reach (kind : ObjKind) (n : Str) (obj : Object) :
    ∀ (files : List GoFile) (d : Data),
    (∀ f ∈ files, ∀ p ∈ f.objects, (p : Str × Object).1 = p.2.decl.name) →
    (∃ f ∈ files, (n, obj) ∈ f.objects) →
    ((files.map (fun f => f.objects.map Prod.fst)).flatten.count n ≤ 1) →
    containesFunc d.Funcs n = false →
    obj.kind = kind → isExported n = true →
    (∀ pkg' paths' imp₀, formatFuncDecl pkg' paths' imp₀ obj.decl =
      .error .unsupportedChan) →
    ∃ e, scanFiles kind d files = .error e := by
  intro files
  induction files with
  | nil =>
    intro d _ hmem _ _ _ _ _
    rcases hmem with ⟨f, hf, _⟩
    cases hf
  | cons f0 rest ih =>
    intro d hwf hmem hcount hnf hkind hexp hfail
    have hwfrest : ∀ f ∈ rest, ∀ p ∈ f.objects, (p : Str × Object).1 = p.2.decl.name :=
      fun f hf => hwf f (List.mem_cons_of_mem _ hf)
    have hcountrest : ((rest.map (fun f => f.objects.map Prod.fst)).flatten.count n ≤ 1) := by
      simp only [List.map_cons, List.flatten_cons, List.count_append] at hcount
      omega
    rcases hmem with ⟨f, hf, hpmem⟩
    rcases List.mem_cons.mp hf with heq | hfrest
    · -- the failing object is in the first file
      subst heq
      have hc0 : (f.objects.map Prod.fst).count n ≤ 1 := by
        simp only [List.map_cons, List.flatten_cons, List.count_append] at hcount
        omega
      rcases scanObjects_error_reach d.InputPkg (d.ImportPaths ++ importPathsOf f)
          kind n obj f.objects d.Imports d.Funcs
          (hwf f (List.mem_cons_self _ _)) hpmem hc0 hnf hkind hexp hfail
        with ⟨e, he⟩
      refine ⟨e, ?_⟩
      rw [scanFiles]
      simp only [scanFile, he]
    · -- the failing object is in a later file
      cases hsf : scanFile kind d f0 with
      | error e =>
        refine ⟨e, ?_⟩
        rw [scanFiles, hsf]
      | ok d₁ =>
        have hnf₁ : containesFunc d₁.Funcs n = false := by
          simp only [scanFile] at hsf
          cases hso : scanObjects d.InputPkg (d.ImportPaths ++ importPathsOf f0)
              kind d.Imports d.Funcs f0.objects with
          | error e => rw [hso] at hsf; cases hsf
          | ok q =>
            obtain ⟨imp₁, funcs₁⟩ := q
            rw [hso] at hsf
            injection hsf with hsf
            rcases scanObjects_funcs_shape d.InputPkg
                (d.ImportPaths ++ importPathsOf f0) kind f0.objects d.Imports
                d.Funcs imp₁ funcs₁ hso with ⟨ext, hext, hnames⟩
            have hd₁ : d₁.Funcs = funcs₁ := by rw [← hsf]
            rw [Bool.eq_false_iff]
            intro hc
            rw [hd₁, hext, containesFunc_iff, List.map_append] at hc
            rcases List.mem_append.mp hc with hc | hc
            · have := (containesFunc_iff d.Funcs n).mpr hc
              rw [hnf] at this
              cases this
            · rcases hnames n hc with ⟨q, hq1, hq2⟩
              -- n is a scope key of f0, but n also occurs in a later file
              have hkey : n ∈ f0.objects.map Prod.fst := by
                have hq0 : q.1 = n :=
                  (hwf f0 (List.mem_cons_self _ _) q hq1).trans hq2
                rw [← hq0]
                exact List.mem_map_of_mem Prod.fst hq1
              have h1 : 0 < (f0.objects.map Prod.fst).count n :=
                List.count_pos_iff.mpr hkey
              have h2 : n ∈ (rest.map (fun f => f.objects.map Prod.fst)).flatten := by
                refine List.mem_flatten.mpr ⟨f.objects.map Prod.fst, ?_, ?_⟩
                · exact List.mem_map_of_mem _ hfrest
                · exact List.mem_map_of_mem Prod.fst hpmem
              have h3 : 0 < ((rest.map (fun f => f.objects.map Prod.fst)).flatten.count n) :=
                List.count_pos_iff.mpr h2
              simp only [List.map_cons, List.flatten_cons, List.count_append] at hcount
              omega
        rcases ih d₁ hwfrest ⟨f, hfrest, hpmem⟩ hcountrest hnf₁ hkind hexp hfail
          with ⟨e, he⟩
        refine ⟨e, ?_⟩
        rw [scanFiles, hsf]
        exact he

/-- Claim C5: when the scan reaches a declaration (exported, of the
scanned kind, uniquely named, well-shaped receiver) containing a channel
type anywhere in its receiver, parameters, or results, the run fails —
`formatFuncDecl` raises the unsupported-chan fault for every import
state, the whole `Data.scan` returns an error (so no SignatureModel is
produced and nothing is written), and the reconstructor never returns
text for any channel-containing type expression. -/
theorem scan_chan_aborts (d : Data) (files : List GoFile) (kind : ObjKind)
    (n : Str) (obj : Object)
    (hwf : ∀ f ∈ files, ∀ p ∈ f.objects, (p : Str × Object).1 = p.2.decl.name)
    (hmem : ∃ f ∈ files, (n, obj) ∈ f.objects)
    (hcount : (files.map (fun f => f.objects.map Prod.fst)).flatten.count n ≤ 1)
    (hkind : obj.kind = kind) (hexp : isExported n = true)
    (hinit : containesFunc d.Funcs n = false)
    (hshape : recvShapeOk obj.decl = true)
    (hchan : declHasChan obj.decl = true) :
    (∃ e, scan d files kind = .error e) ∧
    (∀ pkg paths imp, formatFuncDecl pkg paths imp obj.decl =
      .error .unsupportedChan) ∧
    (∀ pkg paths imp ty out, containsChan ty = true →
      formatType pkg paths imp ty ≠ .ok out) := by
  have hfail := formatFuncDecl_chan_error obj.decl hshape hchan
  refine ⟨?_, hfail, ?_⟩
  · rcases scanFiles_error_reach kind n obj files d hwf hmem hcount hinit hkind
      hexp hfail with ⟨e, he⟩
    refine ⟨e, ?_⟩
    simp only [scan, he]
  · intro pkg paths imp ty out hct hok
    rcases formatType_chan_dichotomy pkg paths imp ty with ⟨_, he⟩ | ⟨hcf, _⟩
    · rw [hok] at he; cases he
    · rw [hct] at hcf; cases hcf

/-- A declaration `Send(c chan int)`-style: a channel type in the
parameters. -/
def chanDecl : FuncDecl :=
  { recv := .none, name := str "Send",
    params := .cons [str "c"] .chanT .nil, results := .none }

/-- A one-file module declaring only the channel-using `Send`. -/
def chanFile : GoFile :=
  { imports := [], objects := [(str "Send", ⟨ObjKind.Fun, chanDecl⟩)] }

/-- Witness for C5 at the concrete channel-using module. -/
theorem scan_chan_aborts_witness :
    (∃ e, scan scanData0 [chanFile] ObjKind.Fun = .error e) ∧
    (∀ pkg paths imp, formatFuncDecl pkg paths imp chanDecl =
      .error .unsupportedChan) ∧
    (∀ pkg paths imp ty out, containsChan ty = true →
      formatType pkg paths imp ty ≠ .ok out) :=
  scan_chan_aborts scanData0 [chanFile] ObjKind.Fun (str "Send")
    ⟨ObjKind.Fun, chanDecl⟩
    (by decide)
    ⟨chanFile, List.mem_cons_self _ _, List.mem_cons_self _ _⟩
    (by decide) rfl (by decide) (by decide) (by decide) (by decide)

/-- An exported name is nonempty. -/
theorem exported_ne_nil (n : Str) (h : isExported n = true) : n ≠ [] := by
  intro hn
  rw [hn] at h
  cases h

/-- The object loop preserves distinctness of the recorded names: the
`containesFunc` guard never lets a second declaration of a recorded
name through. -/
theorem scanObjects_nodup (pkg : Str) (paths : List Str) (kind : ObjKind) :
    ∀ (objs : List (Str × Object)) (imp : List Str) (funcs : List Func)
      (imp' : List Str) (funcs' : List Func),
    (∀ p ∈ objs, (p : Str × Object).1 = p.2.decl.name) →
    scanObjects pkg paths kind imp funcs objs = .ok (imp', funcs') →
    (funcs.map Func.Name).Nodup → (funcs'.map Func.Name).Nodup := by
  intro objs
  induction objs with
  | nil =>
    intro imp funcs imp' funcs' _ h hnd
    simp only [scanObjects] at h
    injection h with h
    have hf := congrArg Prod.snd h
    simp only at hf
    rw [← hf]
    exact hnd
  | cons p rest ih =>
    intro imp funcs imp' funcs' hwf h hnd
    obtain ⟨name, obj⟩ := p
    have hwfrest : ∀ p ∈ rest, (p : Str × Object).1 = p.2.decl.name :=
      fun p hp => hwf p (List.mem_cons_of_mem _ hp)
    simp only [scanObjects] at h
    split at h
    · rename_i hguard
      cases hfd : formatFuncDecl pkg paths imp obj.decl with
      | error e => rw [hfd] at h; cases h
      | ok q =>
        obtain ⟨f, imp₁⟩ := q
        simp only [hfd] at h
        by_cases hfn : f.Name = []
        · rw [if_pos hfn] at h
          exact ih imp₁ funcs imp' funcs' hwfrest h hnd
        · rw [if_neg hfn] at h
          refine ih imp₁ (funcs ++ [f]) imp' funcs' hwfrest h ?_
          have hname : f.Name = obj.decl.name := by
            rcases formatFuncDecl_ok_name pkg paths imp obj.decl f imp₁ hfd with
              hh | hh
            · exact hh
            · rw [hh] at hfn; simp [emptyFunc] at hfn
          have hkey : f.Name = name := by
            rw [hname, ← hwf (name, obj) (List.mem_cons_self _ _)]
          have hnotmem : f.Name ∉ funcs.map Func.Name := by
            intro hm
            have := (containesFunc_iff funcs name).mpr (hkey ▸ hm)
            rw [hguard.2.2] at this
            cases this
          rw [List.map_append]
          simp [List.nodup_append, hnd, hnotmem]
    · exact ih imp funcs imp' funcs' hwfrest h hnd

/-- If an exported, well-shaped object of the scanned kind with scope
key `n` occurs in the object list — or `n` is already recorded — then
`n` is recorded after the loop succeeds. -/
theorem scanObjects_mem (pkg : Str) (paths : List Str) (kind : ObjKind) :
    ∀ (objs : List (Str × Object)) (imp : List Str) (funcs : List Func)
      (imp' : List Str) (funcs' : List Func) (n : Str),
    (∀ p ∈ objs, (p : Str × Object).1 = p.2.decl.name) →
    scanObjects pkg paths kind imp funcs objs = .ok (imp', funcs') →
    (n ∈ funcs.map Func.Name ∨
      ∃ p ∈ objs, (p : Str × Object).1 = n ∧ p.2.kind = kind ∧
        isExported n = true ∧ recvShapeOk p.2.decl = true) →
    n ∈ funcs'.map Func.Name := by
  intro objs
  induction objs with
  | nil =>
    intro imp funcs imp' funcs' n _ h hn
    simp only [scanObjects] at h
    injection h with h
    have hf := congrArg Prod.snd h
    simp only at hf
    rcases hn with hn | ⟨p, hp, _⟩
    · rw [← hf]; exact hn
    · cases hp
  | cons p rest ih =>
    intro imp funcs imp' funcs' n hwf h hn
    obtain ⟨name, obj⟩ := p
    have hwfrest : ∀ p ∈ rest, (p : Str × Object).1 = p.2.decl.name :=
      fun p hp => hwf p (List.mem_cons_of_mem _ hp)
    simp only [scanObjects] at h
    -- one step of the loop, then recurse with the right disjunct
    split at h
    · rename_i hguard
      cases hfd : formatFuncDecl pkg paths imp obj.decl with
      | error e => rw [hfd] at h; cases h
      | ok q =>
        obtain ⟨f, imp₁⟩ := q
        simp only [hfd] at h
        have hname : f.Name = [] ∨ f.Name = obj.decl.name := by
          rcases formatFuncDecl_ok_name pkg paths imp obj.decl f imp₁ hfd with
            hh | hh
          · exact Or.inr hh
          · rw [hh]; exact Or.inl rfl
        by_cases hfn : f.Name = []
        · rw [if_pos hfn] at h
          rcases hn with hn | ⟨q2, hq2, hq2n, hq2k, hq2e, hq2s⟩
          · exact ih imp₁ funcs imp' funcs' n hwfrest h (Or.inl hn)
          · rcases List.mem_cons.mp hq2 with heq | hq2'
            · -- the occurrence is the head, but the head was skipped as an
              -- interface spec: impossible since its receiver shape is ok
              subst heq
              have := formatFuncDecl_ok_name_of_shape pkg paths imp obj.decl
                f imp₁ hq2s hfd
              rw [hfn] at this
              have hkey : obj.decl.name = n := by
                rw [← hwf (name, obj) (List.mem_cons_self _ _)]
                exact hq2n
              rw [hkey] at this
              exact absurd this.symm (exported_ne_nil n hq2e)
            · exact ih imp₁ funcs imp' funcs' n hwfrest h
                (Or.inr ⟨q2, hq2', hq2n, hq2k, hq2e, hq2s⟩)
        · rw [if_neg hfn] at h
          rcases hn with hn | ⟨q2, hq2, hq2n, hq2k, hq2e, hq2s⟩
          · refine ih imp₁ (funcs ++ [f]) imp' funcs' n hwfrest h (Or.inl ?_)
            rw [List.map_append]
            exact List.mem_append_left _ hn
          · rcases List.mem_cons.mp hq2 with heq | hq2'
            · subst heq
              have hfname := formatFuncDecl_ok_name_of_shape pkg paths imp
                obj.decl f imp₁ hq2s hfd
              have hkey : obj.decl.name = n := by
                rw [← hwf (name, obj) (List.mem_cons_self _ _)]
                exact hq2n
              refine ih imp₁ (funcs ++ [f]) imp' funcs' n hwfrest h (Or.inl ?_)
              rw [List.map_append]
              refine List.mem_append_right _ ?_
              simp [hfname, hkey]
            · exact ih imp₁ (funcs ++ [f]) imp' funcs' n hwfrest h
                (Or.inr ⟨q2, hq2', hq2n, hq2k, hq2e, hq2s⟩)
    · rename_i hguard
      rcases hn with hn | ⟨q2, hq2, hq2n, hq2k, hq2e, hq2s⟩
      · exact ih imp funcs imp' funcs' n hwfrest h (Or.inl hn)
      · rcases List.mem_cons.mp hq2 with heq | hq2'
        · -- the head occurrence satisfies the guard unless its name is
          -- already recorded
          subst heq
          have hcf : containesFunc funcs n = true := by
            by_contra hcf
            rw [Bool.not_eq_true] at hcf
            have hkeyn : name = n := hq2n
            exact hguard ⟨hq2k, by rw [hkeyn]; exact hq2e, by rw [hkeyn]; exact hcf⟩
          exact ih imp funcs imp' funcs' n hwfrest h
            (Or.inl ((containesFunc_iff funcs n).mp hcf))
        · exact ih imp funcs imp' funcs' n hwfrest h
            (Or.inr ⟨q2, hq2', hq2n, hq2k, hq2e, hq2s⟩)

/-- The file loop preserves distinctness of recorded names. -/
theorem scanFiles_nodup (kind : ObjKind) :
    ∀ (files : List GoFile) (d d' : Data),
    (∀ f ∈ files, ∀ p ∈ f.objects, (p : Str × Object).1 = p.2.decl.name) →
    scanFiles kind d files = .ok d' →
    (d.Funcs.map Func.Name).Nodup → (d'.Funcs.map Func.Name).Nodup := by
  intro files
  induction files with
  | nil =>
    intro d d' _ h hnd
    rw [scanFiles] at h
    injection h with h
    rw [← h]
    exact hnd
  | cons f0 rest ih =>
    intro d d' hwf h hnd
    rw [scanFiles] at h
    cases hsf : scanFile kind d f0 with
    | error e => rw [hsf] at h; cases h
    | ok d₁ =>
      rw [hsf] at h
      refine ih d₁ d' (fun f hf => hwf f (List.mem_cons_of_mem _ hf)) h ?_
      simp only [scanFile] at hsf
      cases hso : scanObjects d.InputPkg (d.ImportPaths ++ importPathsOf f0)
          kind d.Imports d.Funcs f0.objects with
      | error e => rw [hso] at hsf; cases hsf
      | ok q =>
        obtain ⟨imp₁, funcs₁⟩ := q
        rw [hso] at hsf
        injection hsf with hsf
        have hd₁ : d₁.Funcs = funcs₁ := by rw [← hsf]
        rw [hd₁]
        exact scanObjects_nodup d.InputPkg (d.ImportPaths ++ importPathsOf f0)
          kind f0.objects d.Imports d.Funcs imp₁ funcs₁
          (hwf f0 (List.mem_cons_self _ _)) hso hnd

/-- If an exported, well-shaped object of the scanned kind with scope
key `n` occurs in some file — or `n` is already recorded — then `n` is
recorded after the file loop succeeds. -/
theorem scanFiles_mem (kind : ObjKind) :
    ∀ (files : List GoFile) (d d' : Data) (n : Str),
    (∀ f ∈ files, ∀ p ∈ f.objects, (p : Str × Object).1 = p.2.decl.name) →
    scanFiles kind d files = .ok d' →
    (n ∈ d.Funcs.map Func.Name ∨
      ∃ f ∈ files, ∃ p ∈ f.objects, (p : Str × Object).1 = n ∧
        p.2.kind = kind ∧ isExported n = true ∧ recvShapeOk p.2.decl = true) →
    n ∈ d'.Funcs.map Func.Name := by
  intro files
  induction files with
  | nil =>
    intro d d' n _ h hn
    rw [scanFiles] at h
    injection h with h
    rcases hn with hn | ⟨f, hf, _⟩
    · rw [← h]; exact hn
    · cases hf
  | cons f0 rest ih =>
    intro d d' n hwf h hn
    rw [scanFiles] at h
    cases hsf : scanFile kind d f0 with
    | error e => rw [hsf] at h; cases h
    | ok d₁ =>
      rw [hsf] at h
      simp only [scanFile] at hsf
      cases hso : scanObjects d.InputPkg (d.ImportPaths ++ importPathsOf f0)
          kind d.Imports d.Funcs f0.objects with
      | error e => rw [hso] at hsf; cases hsf
      | ok q =>
        obtain ⟨imp₁, funcs₁⟩ := q
        rw [hso] at hsf
        injection hsf with hsf
        have hd₁ : d₁.Funcs = funcs₁ := by rw [← hsf]
        have hwfrest : ∀ f ∈ rest, ∀ p ∈ f.objects,
            (p : Str × Object).1 = p.2.decl.name :=
          fun f hf => hwf f (List.mem_cons_of_mem _ hf)
        rcases hn with hn | ⟨f, hf, hp, hcond⟩
        · refine ih d₁ d' n hwfrest h (Or.inl ?_)
          rw [hd₁]
          exact scanObjects_mem d.InputPkg (d.ImportPaths ++ importPathsOf f0)
            kind f0.objects d.Imports d.Funcs imp₁ funcs₁ n
            (hwf f0 (List.mem_cons_self _ _)) hso (Or.inl hn)
        · rcases List.mem_cons.mp hf with heq | hfrest
          · subst heq
            refine ih d₁ d' n hwfrest h (Or.inl ?_)
            rw [hd₁]
            exact scanObjects_mem d.InputPkg (d.ImportPaths ++ importPathsOf f)
              kind f.objects d.Imports d.Funcs imp₁ funcs₁ n
              (hwf f (List.mem_cons_self _ _)) hso (Or.inr ⟨hp, hcond⟩)
          · exact ih d₁ d' n hwfrest h (Or.inr ⟨f, hfrest, hp, hcond⟩)

/-- A member of a duplicate-free list occurs in it exactly once. -/
theorem count_eq_one_of_nodup_mem (n : Str) (l : List Str)
    (hnd : l.Nodup) (hm : n ∈ l) : l.count n = 1 := by
  induction l with
  | nil => cases hm
  | cons x xs ih =>
    rw [List.count_cons]
    rcases List.mem_cons.mp hm with heq | hm'
    · subst heq
      have hx : n ∉ xs := (List.nodup_cons.mp hnd).1
      have hz : xs.count n = 0 := by
        rw [List.count_eq_zero]
        exact hx
      simp [hz]
    · have h1 : xs.count n = 1 := ih (List.nodup_cons.mp hnd).2 hm'
      have hxn : ¬ n = x := by
        rintro rfl
        exact (List.nodup_cons.mp hnd).1 hm'
      simp [h1, hxn, Ne.symm hxn]

/-- Claim C4: whenever a module's files hold an exported function
declaration named `n` (with a well-formed receiver shape) — in
particular when two or more files declare the same exported name — the
successfully scanned model records exactly one declaration named `n`,
and no name appears twice in the final declaration list. -/
theorem scan_dedup_unique (d : Data) (files : List GoFile) (kind : ObjKind)
    (n : Str) (d' : Data)
    (hwf : ∀ f ∈ files, ∀ p ∈ f.objects, (p : Str × Object).1 = p.2.decl.name)
    (hnd : (d.Funcs.map Func.Name).Nodup)
    (hocc : ∃ f ∈ files, ∃ p ∈ f.objects, (p : Str × Object).1 = n ∧
      p.2.kind = kind ∧ isExported n = true ∧ recvShapeOk p.2.decl = true)
    (hok : scan d files kind = .ok d') :
    (d'.Funcs.map Func.Name).count n = 1 ∧ (d'.Funcs.map Func.Name).Nodup := by
  simp only [scan] at hok
  cases hsf : scanFiles kind d files with
  | error e => rw [hsf] at hok; cases hok
  | ok d₁ =>
    rw [hsf] at hok
    injection hok with hok
    have hnd₁ := scanFiles_nodup kind files d d₁ hwf hsf hnd
    have hmem₁ := scanFiles_mem kind files d d₁ n hwf hsf (Or.inr hocc)
    have hfuncs : d'.Funcs = sortFuncs d₁.Funcs := by rw [← hok]
    have hperm : List.Perm (d'.Funcs.map Func.Name) (d₁.Funcs.map Func.Name) := by
      rw [hfuncs]
      exact (List.perm_insertionSort _ d₁.Funcs).map Func.Name
    have hnd' : (d'.Funcs.map Func.Name).Nodup := hperm.nodup_iff.mpr hnd₁
    refine ⟨?_, hnd'⟩
    have hmem' : n ∈ d'.Funcs.map Func.Name := hperm.mem_iff.mpr hmem₁
    exact count_eq_one_of_nodup_mem n _ hnd' hmem'

/-- The model scanned from the two duplicate-`Foo` files. -/
def dupModel : Data :=
  { InputPkg := str "m", OutputPkg := [], StructName := [], JsStructName := [],
    ImportPaths := [], Imports := [],
    Funcs := [{ Name := str "Foo", JsName := str "foo", Receiver := [],
                Signature := [], Params := str "()", ParamNames := str "()",
                Results := str "int" }] }

/-- Witness for C4: two files both declaring `Foo` scan to a model with
exactly one `Foo`. -/
theorem scan_dedup_unique_witness :
    (dupModel.Funcs.map Func.Name).count (str "Foo") = 1 ∧
    (dupModel.Funcs.map Func.Name).Nodup :=
  scan_dedup_unique scanData0 [dupFile "int", dupFile "string"] ObjKind.Fun
    (str "Foo") dupModel
    (by decide) (by decide)
    ⟨dupFile "int", List.mem_cons_self _ _,
      (str "Foo", ⟨ObjKind.Fun,
        { recv := .none, name := str "Foo", params := .nil,
          results := .some (.cons [] (.ident (str "int")) .nil) }⟩),
      List.mem_cons_self _ _, rfl, rfl, by decide, by decide⟩
    (by decide)
